import Mathlib

/-!
# A shallow embedding of `sage/game_theory/matching_game.py`

This file embeds the matching engine of `src/sage/game_theory/matching_game.py`
(class `MatchingGame` and its helper class `_Player`) into Lean and proves the
specified properties of the deferred-acceptance (Gale–Shapley) solver.

Modelling conventions, fixed once and for all:

* Agent names (the `name` attribute of `_Player`) are drawn from an arbitrary
  linearly ordered type `α` with decidable equality; in the Python source they
  are strings or integers, both of which are linearly ordered.  `_Player.__eq__`
  compares `repr(self.name) == repr(other.name)`, and `repr` is injective on
  names of a fixed type, so Python's player equality is name equality.
* A `_Player`'s `partner` attribute holds either `False` (unassigned) or a
  reference to an opposite-side player; we model it as `Option α`, storing the
  partner's name.  This is faithful whenever names are unique within a side
  (the data model's invariant), because every partner reference the engine ever
  reads is resolved through name-based equality (`pref.index`, `pref.remove`,
  dictionary keys).
* The `type` attribute of `_Player` is written at construction and never read;
  the `matched` attribute is written by `solve` (lines 184-187) and never read
  anywhere (the loop tests `partner is False`, not `matched`); both are omitted.
* Python's `list.sort()` on a list of names sorts ascending; we model it with
  `List.insertionSort (· ≤ ·)`.  `self.suitors.sort()` / `self.reviewers.sort()`
  sort lists of `_Player` objects which define no ordering methods: in Python 2
  such objects compare by an implementation-defined criterion independent of
  their content, so the collection ends up in an unspecified permutation of
  itself.  We model that reorder as the identity permutation; every theorem
  below either quantifies over all registry orders or states a property that is
  invariant under them.
* The `while` loop of `solve` is modelled with an explicit fuel parameter; the
  fuel passed by `solve` is `gsMeasure _ _ + 1`, and `gsLoop_ne_fuelOut` proves
  that this fuel can never be exhausted, so the fuel-out branch of `solve` is
  unreachable and the model agrees with the unbounded Python loop.
-/

namespace MatchingGameSpec

variable {α : Type} [LinearOrder α]

/-- One `_Player` (matching_game.py lines 211-225): a `name`, the preference
list `pref` over opposite-side names, and the current `partner` (`False` in
Python ↦ `none`; a player reference ↦ `some` of its name). -/
structure Player (α : Type) where
  name : α
  pref : List α
  partner : Option α
deriving DecidableEq

/-- The registry owned by a `MatchingGame`: the two ordered collections
`self.suitors` and `self.reviewers`. -/
structure MatchingGame (α : Type) where
  suitors : List (Player α)
  reviewers : List (Player α)
deriving DecidableEq

/-- The Python exceptions that can escape from the body of the proposal loop
(matching_game.py lines 189-201):
* `headIndex`: `s.pref[0]` on an empty list raises `IndexError`;
* `reviewerNone`: `next((...), None)` returns `None` and `r.partner` then
  raises `AttributeError`;
* `indexProposer` / `indexPartner`: `r.pref.index(s)` / `r.pref.index(r.partner)`
  raise `ValueError` when the argument does not occur. -/
inductive StepErr where
  | headIndex
  | reviewerNone
  | indexProposer
  | indexPartner
deriving DecidableEq

/-- The errors surfaced by the engine: `TypeError` and `ValueError` raised
explicitly by the source, plus the loop-body exceptions of `StepErr`. -/
inductive PyError where
  | typeError (msg : String)
  | valueError (msg : String)
  | stepError (e : StepErr)
deriving DecidableEq

/-- Python's `list.sort()` on a list of names: ascending, stable. -/
def pysort (l : List α) : List α := l.insertionSort (· ≤ ·)

/-- Replace the first element satisfying `p` by its image under `f`; leaves the
list unchanged when no element satisfies `p`.  This is how an in-place mutation
of the object found by a first-match search acts on our immutable lists. -/
def updateFirst (p : β → Bool) (f : β → β) : List β → List β
  | [] => []
  | x :: xs => if p x then f x :: xs else x :: updateFirst p f xs

/-- First index/element pair satisfying `p`
(`[s for s in suitors if ...][0]` together with its position). -/
def findIdxElem? (p : β → Bool) : List β → Option (Nat × β)
  | [] => none
  | x :: xs => if p x then some (0, x) else (findIdxElem? p xs).map (fun ie => (ie.1 + 1, ie.2))

/-- Insertion into a Python `dict` modelled as an association list in insertion
order: overwriting an existing key keeps its position (and key object) and
replaces the value; a new key is appended. -/
def dictInsert (d : List (α × List α)) (k : α) (v : List α) : List (α × List α) :=
  if d.any (fun kv => kv.1 == k) then
    d.map (fun kv => if kv.1 == k then (kv.1, v) else kv)
  else d ++ [(k, v)]

/-- The generator argument of `MatchingGame.__init__`: a Sage `Integer`, a pair
of two dictionaries (modelled as association lists in iteration order, keys
assumed distinct as they are in a Python dict), or any other value. -/
inductive Generator (α : Type) where
  | int (n : Nat)
  | dicts (sd rd : List (α × List α))
  | other

/-- The net effect of `_dict_game` (lines 89-102): one suitor per key of the
first dictionary, one reviewer per key of the second, in iteration order, each
with its preference list taken from the dictionary.  (The placeholder
preference lists written by `add_suitor` / `add_reviewer` during the first two
loops are all overwritten by the two assignment loops, and every `partner`
starts as `False`.) -/
def MatchingGame.ofDicts (sd rd : List (α × List α)) : MatchingGame α :=
  { suitors := sd.map (fun kv => { name := kv.1, pref := kv.2, partner := none }),
    reviewers := rd.map (fun kv => { name := kv.1, pref := kv.2, partner := none }) }

/-- Model of `MatchingGame.__init__` (lines 78-87).  The `if type(generator) is Integer`
branch adds `n` suitors and `n` reviewers, but it is not followed by an `elif`:
control always reaches `if type(generator[0]) is dict and type(generator[1]) is
dict`, which for an `Integer` argument cannot succeed (an `Integer` is not a
container of dictionaries), so the `else` raises `TypeError` and the partially
built object is discarded. -/
def MatchingGame.init : Generator α → Except PyError (MatchingGame α)
  | .int _ => .error (.typeError "generator must be an integer or a list of 2 dictionaries.")
  | .dicts sd rd => .ok (MatchingGame.ofDicts sd rd)
  | .other => .error (.typeError "generator must be an integer or a list of 2 dictionaries.")

/-- Model of `_is_complete` (lines 130-142).  The length check raises `ValueError` when
the sides differ.  The two preference checks compare `suitor.pref.sort()` with
`self.reviewers.sort()` (and symmetrically): `list.sort()` returns `None`, so
each comparison is `None != None`, which is false — the two `ValueError`s
"Suitor preferences incomplete" / "Reviewer preferences incomplete" are
unreachable.  The real effect of the checks is to sort, in place, every
agent's preference list (and to reorder the two collections by the
content-independent Python 2 object order, modelled as the identity; see the
module docstring). -/
def MatchingGame.isComplete (g : MatchingGame α) : Except PyError (MatchingGame α) :=
  if g.suitors.length ≠ g.reviewers.length then
    .error (.valueError "Must have the same number of reviewers as suitors")
  else
    .ok { suitors := g.suitors.map (fun s => { s with pref := pysort s.pref }),
          reviewers := g.reviewers.map (fun r => { r with pref := pysort r.pref }) }

/-- Model of `_is_sovled` (lines 121-128): every agent on both sides has a truthy
(`≠ False`) partner. -/
def isSovledCheck (g : MatchingGame α) : Bool :=
  g.suitors.all (fun s => s.partner.isSome) && g.reviewers.all (fun r => r.partner.isSome)

/-- Model of `_sol_dict` (lines 164-172): after the solved check, build the dictionary
mapping every agent (keyed, like Python dict keys for `_Player`, by its name)
to the one-element list holding its partner.  `p.partner.toList` is `[t]` for
a set partner; the unset case cannot occur past the check. -/
def MatchingGame.solDict (g : MatchingGame α) : Except PyError (List (α × List α)) :=
  if isSovledCheck g then
    .ok ((g.suitors ++ g.reviewers).foldl (fun d p => dictInsert d p.name p.partner.toList) [])
  else .error (.valueError "Game has not been solved yet")

/-- One iteration of the proposal loop of `solve` (lines 189-201), acting on the
working copies.  `s` is the first unassigned proposer, `target = s.pref[0]`,
`r` the first reviewer named `target`.  The three outcomes: `r` free — form the
pair; `r` engaged but preferring `s` — the old partner is bumped (its `partner`
is reset) and the pair is formed; otherwise `s.pref.remove(r)` deletes the
first occurrence of `r`'s name, which is the head `target` itself, modelled by
`List.erase`.  A result of `.ok none` means the `while` condition is false and
the loop exits. -/
def gsStep (suitors reviewers : List (Player α)) :
    Except StepErr (Option (List (Player α) × List (Player α))) :=
  match findIdxElem? (fun s => s.partner.isNone) suitors with
  | none => .ok none
  | some (i, s) =>
    match s.pref.head? with
    | none => .error .headIndex
    | some target =>
      match reviewers.find? (fun x => x.name == target) with
      | none => .error .reviewerNone
      | some r =>
        match r.partner with
        | none =>
          .ok (some (suitors.set i { s with partner := some r.name },
                updateFirst (fun x => x.name == target)
                  (fun x => { x with partner := some s.name }) reviewers))
        | some pName =>
          if s.name ∈ r.pref then
            if pName ∈ r.pref then
              if r.pref.indexOf s.name < r.pref.indexOf pName then
                .ok (some ((updateFirst (fun x => x.name == pName)
                      (fun x => { x with partner := none }) suitors).set i
                        { s with partner := some r.name },
                      updateFirst (fun x => x.name == target)
                        (fun x => { x with partner := some s.name }) reviewers))
              else
                .ok (some (suitors.set i { s with pref := s.pref.erase r.name }, reviewers))
            else .error .indexPartner
          else .error .indexProposer

/-- The contribution of one reviewer to the loop measure: the position of its
partner in its own preference list (reviewers only ever trade up, so this only
decreases), or the full list length when free. -/
def revPotential (r : Player α) : Nat :=
  match r.partner with
  | none => r.pref.length
  | some u => r.pref.indexOf u

/-- A measure that strictly decreases at every successful iteration of the
proposal loop, on every state: total remaining preference-list length of the
proposers, plus the reviewers' potentials, plus the number of unassigned
proposers. -/
def gsMeasure (su rv : List (Player α)) : Nat :=
  (su.map (fun s => s.pref.length)).sum + (rv.map revPotential).sum
    + su.countP (fun s => s.partner.isNone)

/-- Result of running the proposal loop with a given amount of fuel. -/
inductive LoopResult (α : Type) where
  | done (suitors reviewers : List (Player α)) (iters : Nat)
  | err (e : StepErr)
  | fuelOut
deriving DecidableEq

/-- The `while` loop of `solve` (lines 189-201), with fuel and an iteration
counter.  `gsLoop_ne_fuelOut` shows fuel `gsMeasure su rv + 1` never runs out,
so with that fuel this is the Python loop. -/
def gsLoop : Nat → List (Player α) → List (Player α) → LoopResult α
  | 0, _, _ => .fuelOut
  | fuel + 1, su, rv =>
    match gsStep su rv with
    | .error e => .err e
    | .ok none => .done su rv 0
    | .ok (some (su', rv')) =>
      match gsLoop fuel su' rv' with
      | .done sf rf k => .done sf rf (k + 1)
      | r => r

/-- Model of `solve` (lines 174-208).  Validates via `_is_complete` (whose real effect
is the in-place preference sort), takes deep copies of the two collections —
with `invert` the copies swap proposing roles — runs the proposal loop, and
commits the results by `zip(self.suitors, suitors)` / `zip(self.reviewers,
reviewers)`: note that under `invert` the local `suitors` are the copied
*reviewers*, so the zips pair originals with copies of the opposite side,
exactly as the source does.  Finally returns `self._sol_dict()`.  The
`.fuelOut` branch is unreachable (`gsLoop_ne_fuelOut`). -/
def MatchingGame.solve (g : MatchingGame α) (invert : Bool) :
    Except PyError (MatchingGame α × List (α × List α)) :=
  match g.isComplete with
  | .error e => .error e
  | .ok g' =>
    let suitors := if invert then g'.reviewers else g'.suitors
    let reviewers := if invert then g'.suitors else g'.reviewers
    match gsLoop (gsMeasure suitors reviewers + 1) suitors reviewers with
    | .err e => .error (.stepError e)
    | .fuelOut => .error (.stepError .headIndex)
    | .done sf rf _ =>
      let g'' : MatchingGame α :=
        { suitors := List.zipWith (fun i j => { i with partner := j.partner }) g'.suitors sf,
          reviewers := List.zipWith (fun i j => { i with partner := j.partner }) g'.reviewers rf }
      match g''.solDict with
      | .error e => .error e
      | .ok d => .ok (g'', d)

/-! ## Specification-side predicates

These definitions follow the spec's wording; they are the yardsticks the
engine's output is measured against, not part of the embedding. -/

deriving instance DecidableEq for Except

/-- In a caller-supplied preference list, `a` is preferred to `b` when it
occurs strictly earlier. -/
def prefers (pl : List α) (a b : α) : Prop := pl.indexOf a < pl.indexOf b

instance (pl : List α) (a b : α) : Decidable (prefers pl a b) := by
  unfold prefers; infer_instance

/-- A blocking pair for an output mapping `d`, with respect to the
caller-supplied preference dictionaries `sd` (suitors) and `rd` (reviewers):
suitor `S` is matched to some `R`, reviewer `R'` to some `S'`, `S` prefers
`R'` to `R`, and `R'` prefers `S` to its assigned partner `S'`.  Stability in
the spec's sense is the absence of any such pair. -/
def blockingPair (sd rd d : List (α × List α)) (S R' : α) : Prop :=
  ∃ R S', d.lookup S = some [R] ∧ d.lookup R' = some [S'] ∧
    prefers ((sd.lookup S).getD []) R' R ∧ prefers ((rd.lookup R').getD []) S S'

/-- The spec's completeness precondition on a registry, together with the data
model's invariants for a registry as built by the constructor: both sides have
the same size, names are unique within each side, every preference list is a
permutation of the full opposite side, and no partner has been assigned yet
(partners are "mutated only by the engine"). -/
def FreshComplete (g : MatchingGame α) : Prop :=
  g.suitors.length = g.reviewers.length ∧
  (g.suitors.map Player.name).Nodup ∧
  (g.reviewers.map Player.name).Nodup ∧
  (∀ s ∈ g.suitors, s.pref.Perm (g.reviewers.map Player.name)) ∧
  (∀ r ∈ g.reviewers, r.pref.Perm (g.suitors.map Player.name)) ∧
  (∀ s ∈ g.suitors, s.partner = none) ∧
  (∀ r ∈ g.reviewers, r.partner = none)

instance (g : MatchingGame α) : Decidable (FreshComplete g) := by
  unfold FreshComplete; infer_instance

/-! ## Concrete instances

The worked scenario of the spec (4 suitors J K L M, 4 reviewers A B C D) and
the small instances used as failing inputs and witnesses. -/

/-- The spec scenario's suitor dictionary, in source order. -/
def sdC6 : List (Char × List Char) :=
  [('J', ['A', 'D', 'C', 'B']), ('K', ['A', 'B', 'C', 'D']),
   ('L', ['B', 'D', 'C', 'A']), ('M', ['C', 'A', 'B', 'D'])]

/-- The spec scenario's reviewer dictionary, in source order. -/
def rdC6 : List (Char × List Char) :=
  [('A', ['L', 'J', 'K', 'M']), ('B', ['J', 'M', 'L', 'K']),
   ('C', ['K', 'M', 'L', 'J']), ('D', ['M', 'K', 'J', 'L'])]

/-- The spec scenario's registry. -/
def gC6 : MatchingGame Char := MatchingGame.ofDicts sdC6 rdC6

/-- The registry state `solve` leaves behind on the spec scenario: preference
lists sorted in place by `_is_complete`, partners committed. -/
def gC6solved : MatchingGame Char :=
  { suitors := [{ name := 'J', pref := ['A', 'B', 'C', 'D'], partner := some 'A' },
                { name := 'K', pref := ['A', 'B', 'C', 'D'], partner := some 'B' },
                { name := 'L', pref := ['A', 'B', 'C', 'D'], partner := some 'C' },
                { name := 'M', pref := ['A', 'B', 'C', 'D'], partner := some 'D' }],
    reviewers := [{ name := 'A', pref := ['J', 'K', 'L', 'M'], partner := some 'J' },
                  { name := 'B', pref := ['J', 'K', 'L', 'M'], partner := some 'K' },
                  { name := 'C', pref := ['J', 'K', 'L', 'M'], partner := some 'L' },
                  { name := 'D', pref := ['J', 'K', 'L', 'M'], partner := some 'M' }] }

/-- The mapping `solve` returns on the spec scenario: J–A, K–B, L–C, M–D. -/
def C6sol : List (Char × List Char) :=
  [('J', ['A']), ('K', ['B']), ('L', ['C']), ('M', ['D']),
   ('A', ['J']), ('B', ['K']), ('C', ['L']), ('D', ['M'])]

/-- A 1×1 registry with distinct names, used as a witness instance. -/
def gJA : MatchingGame Char := MatchingGame.ofDicts [('J', ['A'])] [('A', ['J'])]

/-- A 1×1 registry whose suitor and reviewer share the name `0` (names are
still unique within each side). -/
def gDup : MatchingGame Char := MatchingGame.ofDicts [('0', ['0'])] [('0', ['0'])]

/-- An equal-sized registry whose suitor ranks a nonexistent reviewer `X`:
its preference list is not an enumeration of the reviewer side. -/
def gBadPref : MatchingGame Char := MatchingGame.ofDicts [('J', ['X'])] [('A', ['J'])]

/-- Three suitors against two reviewers. -/
def g32 : MatchingGame Char :=
  MatchingGame.ofDicts
    [('J', ['A', 'B']), ('K', ['A', 'B']), ('L', ['A', 'B'])]
    [('A', ['J', 'K', 'L']), ('B', ['J', 'K', 'L'])]

/-- The registry state `_is_complete` leaves behind on the spec scenario:
every preference list has been sorted in place, no partner assigned. -/
def gC6sorted : MatchingGame Char :=
  { suitors := [{ name := 'J', pref := ['A', 'B', 'C', 'D'], partner := none },
                { name := 'K', pref := ['A', 'B', 'C', 'D'], partner := none },
                { name := 'L', pref := ['A', 'B', 'C', 'D'], partner := none },
                { name := 'M', pref := ['A', 'B', 'C', 'D'], partner := none }],
    reviewers := [{ name := 'A', pref := ['J', 'K', 'L', 'M'], partner := none },
                  { name := 'B', pref := ['J', 'K', 'L', 'M'], partner := none },
                  { name := 'C', pref := ['J', 'K', 'L', 'M'], partner := none },
                  { name := 'D', pref := ['J', 'K', 'L', 'M'], partner := none }] }

/-- All ways of inserting `x` into a list (used to enumerate the unspecified
Python dictionary iteration orders). -/
def insertAll (x : β) : List β → List (List β)
  | [] => [[x]]
  | y :: ys => (x :: y :: ys) :: (insertAll x ys).map (y :: ·)

/-- All permutations of a list, by repeated insertion; `mem_perms_of_perm`
shows the enumeration is complete. -/
def perms : List β → List (List β)
  | [] => [[]]
  | x :: xs => (perms xs).flatMap (insertAll x)

/-- Decidable check that the registry built from the two dictionaries solves to
the matching J–A, K–B, L–C, M–D of the spec scenario. -/
def checkC6 (sd rd : List (Char × List Char)) : Bool :=
  match (MatchingGame.ofDicts sd rd).solve false with
  | .ok (_, d) =>
      d.lookup 'J' == some ['A'] && d.lookup 'K' == some ['B'] &&
      d.lookup 'L' == some ['C'] && d.lookup 'M' == some ['D'] &&
      d.lookup 'A' == some ['J'] && d.lookup 'B' == some ['K'] &&
      d.lookup 'C' == some ['L'] && d.lookup 'D' == some ['M']
  | .error _ => false

/-- The loop invariant of the proposal loop, for the states `solve` actually
runs it on.  `SN` and `RN` are the sorted lists of proposer-side and
target-side names (after `_is_complete`'s in-place sort every proposer's
preference list is a tail of `RN` and every target's preference list is `SN`
itself).  The components:

* `sperm` / `rperm`: the working collections carry exactly the names `SN` / `RN`;
* `rpref`: a target's preference list is never mutated;
* `spref`: a proposer's remaining preference list is the tail of `RN` from
  some position `k`, and `k` never exceeds the proposer's own rank in `SN`
  (a proposer is only ever rejected in favour of a better-ranked proposer,
  and after the sort "better" coincides with name order);
* `sptr` / `rptr`: partner references point at existing opposite-side names,
  are mutual, and a matched target's partner ranks at least as high as the
  target's own rank mirrored into `SN`. -/
structure GSInv (SN RN : List α) (su rv : List (Player α)) : Prop where
  sperm : (su.map Player.name).Perm SN
  rperm : (rv.map Player.name).Perm RN
  rpref : ∀ r ∈ rv, r.pref = SN
  spref : ∀ s ∈ su, ∃ k, s.pref = RN.drop k ∧ k ≤ SN.indexOf s.name
  sptr : ∀ s ∈ su, ∀ t, s.partner = some t →
    t ∈ RN ∧ ∀ r ∈ rv, r.name = t → r.partner = some s.name
  rptr : ∀ r ∈ rv, ∀ u, r.partner = some u →
    u ∈ SN ∧ RN.indexOf r.name ≤ SN.indexOf u ∧
      ∀ s ∈ su, s.name = u → s.partner = some r.name

/-- The refined potential: `n²` at the initial state of the loop and strictly
decreasing at every iteration (under `GSInv`).  A proposer of rank `i` whose
preference list has been cut down to `RN.drop k` contributes `i - k` (its
remaining possible rejections); a free target of rank `j` contributes
`n - j` (the longest possible chain of engagements at that target); an
engaged target contributes `rank of partner - j` (its remaining possible
trade-ups). -/
def phi (SN RN : List α) (su rv : List (Player α)) : Nat :=
  (su.map (fun s => SN.indexOf s.name - (RN.length - s.pref.length))).sum +
  (rv.map (fun r =>
    match r.partner with
    | none => RN.length - RN.indexOf r.name
    | some u => SN.indexOf u - RN.indexOf r.name)).sum

/-! ## Completeness of the permutation enumerator -/

theorem cons_mem_insertAll (x : β) (l : List β) : (x :: l) ∈ insertAll x l := by
  cases l <;> simp [insertAll]

theorem middle_mem_insertAll (x : β) :
    ∀ pre post : List β, (pre ++ x :: post) ∈ insertAll x (pre ++ post)
  | [], post => by simpa using cons_mem_insertAll x post
  | y :: pre, post => by
    simp only [List.cons_append, insertAll, List.mem_cons]
    exact Or.inr (List.mem_map.2 ⟨pre ++ x :: post, middle_mem_insertAll x pre post, rfl⟩)

theorem mem_perms_of_perm : ∀ {l₂ l₁ : List β}, l₁.Perm l₂ → l₁ ∈ perms l₂
  | [], l₁, h => by simp [perms, h.eq_nil]
  | y :: t, l₁, h => by
    have hy : y ∈ l₁ := h.symm.subset (List.mem_cons_self y t)
    obtain ⟨pre, post, rfl⟩ := List.append_of_mem hy
    have h2 : (pre ++ post).Perm t := (List.perm_middle.symm.trans h).cons_inv
    have hmem := mem_perms_of_perm h2
    simp only [perms]
    exact List.mem_flatMap.2 ⟨pre ++ post, hmem, middle_mem_insertAll y pre post⟩

set_option maxHeartbeats 4000000 in
/-- Exhaustive check of the spec scenario over every pair of dictionary
iteration orders: all 576 runs of `solve` return J–A, K–B, L–C, M–D. -/
theorem checkC6_all :
    ((perms sdC6).all fun sd => (perms rdC6).all fun rd => checkC6 sd rd) = true := by
  decide

/-! ## The concrete claims -/

/-- C6: for the concrete spec instance (suitors J→[A,D,C,B], K→[A,B,C,D],
L→[B,D,C,A], M→[C,A,B,D]; reviewers A→[L,J,K,M], B→[J,M,L,K], C→[K,M,L,J],
D→[M,K,J,L]), in whichever order the two Python dictionaries happen to be
iterated during construction, `solve(invert=false)` succeeds and returns the
matching J–A, K–B, L–C, M–D. -/
theorem spec_scenario_solution (sd rd : List (Char × List Char))
    (hs : sd.Perm sdC6) (hr : rd.Perm rdC6) :
    ∃ gf d, (MatchingGame.ofDicts sd rd).solve false = .ok (gf, d) ∧
      d.lookup 'J' = some ['A'] ∧ d.lookup 'K' = some ['B'] ∧
      d.lookup 'L' = some ['C'] ∧ d.lookup 'M' = some ['D'] ∧
      d.lookup 'A' = some ['J'] ∧ d.lookup 'B' = some ['K'] ∧
      d.lookup 'C' = some ['L'] ∧ d.lookup 'D' = some ['M'] := by
  have h1 : checkC6 sd rd = true :=
    List.all_eq_true.1 (List.all_eq_true.1 checkC6_all sd (mem_perms_of_perm hs)) rd
      (mem_perms_of_perm hr)
  revert h1
  unfold checkC6
  cases hsol : (MatchingGame.ofDicts sd rd).solve false with
  | error e => intro h1; exact absurd h1 (by simp)
  | ok p =>
    obtain ⟨gf, d⟩ := p
    intro h1
    simp only [Bool.and_eq_true, beq_iff_eq] at h1
    obtain ⟨⟨⟨⟨⟨⟨⟨hJ, hK⟩, hL⟩, hM⟩, hA⟩, hB⟩, hC⟩, hD⟩ := h1
    exact ⟨gf, d, rfl, hJ, hK, hL, hM, hA, hB, hC, hD⟩

/-- Witness for `spec_scenario_solution`, at the source order of the two
dictionaries. -/
theorem spec_scenario_solution_witness :
    ∃ gf d, (MatchingGame.ofDicts sdC6 rdC6).solve false = .ok (gf, d) ∧
      d.lookup 'J' = some ['A'] ∧ d.lookup 'K' = some ['B'] ∧
      d.lookup 'L' = some ['C'] ∧ d.lookup 'M' = some ['D'] ∧
      d.lookup 'A' = some ['J'] ∧ d.lookup 'B' = some ['K'] ∧
      d.lookup 'C' = some ['L'] ∧ d.lookup 'D' = some ['M'] :=
  spec_scenario_solution sdC6 rdC6 (List.Perm.refl _) (List.Perm.refl _)


/-- C1 (code bug): on the spec scenario `solve` succeeds with J–A, K–B, L–C,
M–D, but suitor L and reviewer B form a blocking pair with respect to the
preference lists the caller supplied: L prefers B to its assigned partner C,
and B prefers L to its assigned partner K.  The in-place `list.sort()` calls
in `_is_complete` destroy the caller's preference orders before the proposal
loop runs, so the loop computes a matching that is only stable for the sorted
lists. -/
theorem stability_fails_on_spec_scenario :
    gC6.solve false = .ok (gC6solved, C6sol) ∧ blockingPair sdC6 rdC6 C6sol 'L' 'B' :=
  ⟨by decide, 'C', 'K', by decide, by decide, by decide, by decide⟩

/-- C3 (code bug): the completeness check raises a validation error if and
only if the two sides differ in size; the preference-list conditions of the
claim never raise.  `gBadPref` has equal sides and a suitor preference list
`[X]` that, sorted, differs from the sorted reviewer set `[A]`, yet
`_is_complete` passes it (each `list.sort()` comparison is `None != None`),
and `solve` then crashes inside the loop — `next(...)` returns `None` and
`None.partner` raises `AttributeError` — instead of raising the promised
validation error.  The 3-suitor/2-reviewer registry does fail with the size
`ValueError`. -/
theorem completeness_check_only_checks_sizes :
    pysort (['X'] : List Char) ≠ pysort ['A'] ∧
    gBadPref.isComplete =
      .ok { suitors := [{ name := 'J', pref := ['X'], partner := none }],
            reviewers := [{ name := 'A', pref := ['J'], partner := none }] } ∧
    gBadPref.solve false = .error (.stepError .reviewerNone) ∧
    g32.isComplete = .error (.valueError "Must have the same number of reviewers as suitors") :=
  ⟨by decide, by decide, by decide, by decide⟩

/-- C4 (code bug): `solve` mutates the registry's original agents before the
commit step: `_is_complete`, called first thing in `solve`, sorts every
original agent's preference list in place.  On the spec scenario suitor J's
list [A,D,C,B] has already become [A,B,C,D] when validation returns, and the
registry `solve` leaves behind keeps the sorted lists. -/
theorem solve_mutates_preference_lists_before_commit :
    gC6.isComplete = .ok gC6sorted ∧
    gC6sorted.suitors.map Player.pref ≠ gC6.suitors.map Player.pref ∧
    gC6.solve false = .ok (gC6solved, C6sol) ∧
    gC6solved.suitors.map Player.pref ≠ gC6.suitors.map Player.pref :=
  ⟨by decide, by decide, by decide, by decide⟩

/-- C5 (code bug): constructing a game from a bare integer count `n` always
raises `TypeError` — the `Integer` branch of `__init__` is not followed by an
`elif`, so control falls into the dictionary test, which cannot succeed for an
integer — and in particular the `n = 0` boundary scenario cannot even be
constructed. -/
theorem integer_construction_fails :
    ∀ n : Nat, @MatchingGame.init Char (.int n) =
      .error (.typeError "generator must be an integer or a list of 2 dictionaries.") :=
  fun _ => rfl

/-- C7 (code bug): with `invert=true` the commit step crosses the sides, since
`zip(self.suitors, suitors)` pairs the original suitors with the working
copies of the reviewers (after the swap the local `suitors` holds the copied
reviewers).  On the 1×1 registry J→[A], A→[J], an inverted solve leaves J
partnered with the suitor-side name J (itself) and A with A, instead of J–A;
the non-inverted solve on the same registry is correct. -/
theorem invert_commit_crosses_sides :
    gJA.solve true =
      .ok ({ suitors := [{ name := 'J', pref := ['A'], partner := some 'J' }],
             reviewers := [{ name := 'A', pref := ['J'], partner := some 'A' }] },
           [('J', ['J']), ('A', ['A'])]) ∧
    gJA.solve false =
      .ok ({ suitors := [{ name := 'J', pref := ['A'], partner := some 'A' }],
             reviewers := [{ name := 'A', pref := ['J'], partner := some 'J' }] },
           [('J', ['A']), ('A', ['J'])]) :=
  ⟨by decide, by decide⟩

/-- C2 counterexample: `gDup` has one suitor named 0 and one reviewer named 0
— names unique within each side, as the claim requires — but the returned
mapping has a single key (the reviewer's entry overwrote the suitor's entry,
because Python dict keys compare `_Player`s by name), not 2·n = 2 keys. -/
theorem output_key_count_fails_on_shared_name :
    gDup.solve false =
      .ok ({ suitors := [{ name := '0', pref := ['0'], partner := some '0' }],
             reviewers := [{ name := '0', pref := ['0'], partner := some '0' }] },
           [('0', ['0'])]) ∧
    ([(('0' : Char), ['0'])].length : Nat) ≠ 2 * gDup.suitors.length :=
  ⟨by decide, by decide⟩

/-! ## Generic lemmas about the list-surgery helpers -/

theorem updateFirst_cons_pos {q : β → Bool} {g : β → β} {x : β} {xs : List β}
    (h : q x = true) : updateFirst q g (x :: xs) = g x :: xs := by
  simp [updateFirst, h]

theorem updateFirst_cons_neg {q : β → Bool} {g : β → β} {x : β} {xs : List β}
    (h : q x = false) : updateFirst q g (x :: xs) = x :: updateFirst q g xs := by
  simp [updateFirst, h]

theorem findIdxElem?_cons_pos {p : β → Bool} {x : β} {xs : List β} (h : p x = true) :
    findIdxElem? p (x :: xs) = some (0, x) := by
  simp [findIdxElem?, h]

theorem findIdxElem?_cons_neg {p : β → Bool} {x : β} {xs : List β} (h : p x = false) :
    findIdxElem? p (x :: xs) =
      (findIdxElem? p xs).map (fun ie => (ie.1 + 1, ie.2)) := by
  simp [findIdxElem?, h]

theorem length_updateFirst (q : β → Bool) (g : β → β) :
    ∀ l : List β, (updateFirst q g l).length = l.length
  | [] => rfl
  | x :: xs => by
    cases h : q x
    · rw [updateFirst_cons_neg h]
      simp [length_updateFirst q g xs]
    · rw [updateFirst_cons_pos h]
      simp

theorem map_updateFirst {γ : Type} (f : β → γ) (q : β → Bool) (g : β → β)
    (hf : ∀ y, f (g y) = f y) : ∀ l : List β, (updateFirst q g l).map f = l.map f
  | [] => rfl
  | x :: xs => by
    cases h : q x
    · rw [updateFirst_cons_neg h]
      simp [map_updateFirst f q g hf xs]
    · rw [updateFirst_cons_pos h]
      simp [hf]

theorem mem_updateFirst (q : β → Bool) (g : β → β) :
    ∀ {l : List β} {y : β}, y ∈ updateFirst q g l → y ∈ l ∨ ∃ x, x ∈ l ∧ q x = true ∧ y = g x
  | [], y, hy => absurd hy (by simp [updateFirst])
  | x :: xs, y, hy => by
    cases h : q x
    · rw [updateFirst_cons_neg h] at hy
      rcases List.mem_cons.1 hy with rfl | hy
      · exact Or.inl (List.mem_cons_self _ _)
      · rcases mem_updateFirst q g hy with h2 | ⟨z, hz, hqz, hyz⟩
        · exact Or.inl (List.mem_cons_of_mem x h2)
        · exact Or.inr ⟨z, List.mem_cons_of_mem x hz, hqz, hyz⟩
    · rw [updateFirst_cons_pos h] at hy
      rcases List.mem_cons.1 hy with rfl | hy
      · exact Or.inr ⟨x, List.mem_cons_self x xs, h, rfl⟩
      · exact Or.inl (List.mem_cons_of_mem x hy)

theorem get?_updateFirst (q : β → Bool) (g : β → β) :
    ∀ (l : List β) (i : Nat),
      (updateFirst q g l).get? i = l.get? i ∨
        ∃ x, l.get? i = some x ∧ (updateFirst q g l).get? i = some (g x)
  | [], i => by simp [updateFirst]
  | x :: xs, i => by
    cases h : q x
    · rw [updateFirst_cons_neg h]
      cases i with
      | zero => simp
      | succ n => simpa using get?_updateFirst q g xs n
    · rw [updateFirst_cons_pos h]
      cases i with
      | zero => exact Or.inr ⟨x, by simp, by simp⟩
      | succ n => simp

theorem countP_updateFirst_le (p q : β → Bool) (g : β → β) :
    ∀ l : List β, (updateFirst q g l).countP p ≤ l.countP p + 1
  | [] => by simp [updateFirst]
  | x :: xs => by
    cases h : q x
    · rw [updateFirst_cons_neg h]
      simp only [List.countP_cons]
      have := countP_updateFirst_le p q g xs
      omega
    · rw [updateFirst_cons_pos h]
      simp only [List.countP_cons]
      cases hp : p (g x) <;> cases hp2 : p x <;> simp <;> omega

theorem sum_map_set (f : β → Nat) :
    ∀ (l : List β) (i : Nat) (x y : β), l.get? i = some y →
      ((l.set i x).map f).sum + f y = (l.map f).sum + f x
  | [], i, x, y, h => by simp at h
  | z :: zs, 0, x, y, h => by
    obtain rfl : z = y := by simpa using h
    simp [List.set]
    omega
  | z :: zs, i + 1, x, y, h => by
    have h2 : zs.get? i = some y := by simpa using h
    have := sum_map_set f zs i x y h2
    simp only [List.set, List.map_cons, List.sum_cons]
    omega

theorem countP_set (p : β → Bool) :
    ∀ (l : List β) (i : Nat) (x y : β), l.get? i = some y →
      (l.set i x).countP p + (if p y = true then 1 else 0) =
        l.countP p + (if p x = true then 1 else 0)
  | [], i, x, y, h => by simp at h
  | z :: zs, 0, x, y, h => by
    obtain rfl : z = y := by simpa using h
    simp only [List.set, List.countP_cons]
    cases hp : p x <;> cases hp2 : p z <;> simp [hp, hp2] <;> omega
  | z :: zs, i + 1, x, y, h => by
    have h2 : zs.get? i = some y := by simpa using h
    have := countP_set p zs i x y h2
    simp only [List.set, List.countP_cons]
    omega

theorem mem_set_self : ∀ (l : List β) (i : Nat) (x : β), i < l.length → x ∈ l.set i x
  | [], i, x, h => absurd h (by simp)
  | y :: ys, 0, x, _ => by simp [List.set]
  | y :: ys, i + 1, x, h =>
    List.mem_cons_of_mem y (mem_set_self ys i x (by simpa using h))

theorem set_some_self : ∀ (l : List β) (i : Nat) (y : β), l.get? i = some y →
    l.set i y = l
  | [], i, y, h => by simp at h
  | z :: zs, 0, y, h => by
    obtain rfl : z = y := by simpa using h
    rfl
  | z :: zs, i + 1, y, h => by
    have h2 : zs.get? i = some y := by simpa using h
    simp [List.set, set_some_self zs i y h2]

theorem mem_set : ∀ (l : List β) (i : Nat) (x z : β), z ∈ l.set i x → z = x ∨ z ∈ l
  | [], i, x, z, h => by simp [List.set] at h
  | y :: ys, 0, x, z, h => by
    rcases List.mem_cons.1 h with rfl | h
    · exact Or.inl rfl
    · exact Or.inr (List.mem_cons_of_mem y h)
  | y :: ys, i + 1, x, z, h => by
    rcases List.mem_cons.1 h with rfl | h
    · exact Or.inr (List.mem_cons_self z ys)
    · rcases mem_set ys i x z h with h2 | h2
      · exact Or.inl h2
      · exact Or.inr (List.mem_cons_of_mem y h2)

theorem get?_set_self : ∀ (l : List β) (i : Nat) (x : β), i < l.length →
    (l.set i x).get? i = some x
  | [], i, x, h => absurd h (by simp)
  | y :: ys, 0, x, _ => rfl
  | y :: ys, i + 1, x, h => by
    simpa [List.set] using get?_set_self ys i x (by simpa using h)

theorem map_set {γ : Type} (f : β → γ) :
    ∀ (l : List β) (i : Nat) (x : β), (l.set i x).map f = (l.map f).set i (f x)
  | [], i, x => by simp
  | y :: ys, 0, x => rfl
  | y :: ys, i + 1, x => by
    simp only [List.set, List.map_cons]
    rw [map_set f ys i x]

theorem findIdxElem?_some (p : β → Bool) :
    ∀ {l : List β} {i : Nat} {x : β}, findIdxElem? p l = some (i, x) →
      l.get? i = some x ∧ p x = true
  | [], i, x, h => by simp [findIdxElem?] at h
  | y :: ys, i, x, h => by
    cases hq : p y
    · rw [findIdxElem?_cons_neg hq] at h
      rw [Option.map_eq_some'] at h
      obtain ⟨⟨j, z⟩, hjz, hmap⟩ := h
      injection hmap with h1 h2
      subst h1; subst h2
      have := findIdxElem?_some p hjz
      exact ⟨by simpa using this.1, this.2⟩
    · rw [findIdxElem?_cons_pos hq] at h
      injection h with h
      injection h with h1 h2
      subst h1; subst h2
      exact ⟨rfl, hq⟩

theorem findIdxElem?_none (p : β → Bool) :
    ∀ {l : List β}, findIdxElem? p l = none → ∀ x ∈ l, p x = false
  | [], _, x, hx => absurd hx (by simp)
  | y :: ys, h, x, hx => by
    cases hq : p y
    · rw [findIdxElem?_cons_neg hq, Option.map_eq_none'] at h
      rcases List.mem_cons.1 hx with rfl | hx
      · exact hq
      · exact findIdxElem?_none p h x hx
    · rw [findIdxElem?_cons_pos hq] at h
      exact absurd h (by simp)

theorem find?_decomp (q : β → Bool) (g : β → β) :
    ∀ {l : List β} {x : β}, l.find? q = some x →
      ∃ pre post, l = pre ++ x :: post ∧ q x = true ∧ (∀ y ∈ pre, q y = false) ∧
        updateFirst q g l = pre ++ g x :: post
  | [], x, h => absurd h (by simp)
  | y :: ys, x, h => by
    cases hq : q y
    · rw [List.find?_cons_of_neg _ (by simp [hq])] at h
      obtain ⟨pre, post, rfl, hqx, hpre, hupd⟩ := find?_decomp q g h
      refine ⟨y :: pre, post, rfl, hqx, ?_, ?_⟩
      · intro z hz
        rcases List.mem_cons.1 hz with rfl | hz
        · exact hq
        · exact hpre z hz
      · rw [updateFirst_cons_neg hq, hupd]
        rfl
    · rw [List.find?_cons_of_pos _ hq] at h
      injection h with h
      subst h
      exact ⟨[], ys, rfl, hq, by simp, by rw [updateFirst_cons_pos hq]; rfl⟩

/-! ## The loop measure strictly decreases at every successful step -/

theorem revPotential_of_none {r : Player α} (h : r.partner = none) :
    revPotential r = r.pref.length := by
  simp [revPotential, h]

theorem revPotential_of_some {r : Player α} {u : α} (h : r.partner = some u) :
    revPotential r = r.pref.indexOf u := by
  simp [revPotential, h]

theorem gsStep_measure_lt {su rv su' rv' : List (Player α)}
    (h : gsStep su rv = .ok (some (su', rv'))) :
    gsMeasure su' rv' < gsMeasure su rv := by
  cases hfind : findIdxElem? (fun s => s.partner.isNone) su with
  | none => simp [gsStep, hfind] at h
  | some ix =>
    obtain ⟨i, s⟩ := ix
    obtain ⟨hgets, hpnone⟩ := findIdxElem?_some _ hfind
    cases hhead : s.pref.head? with
    | none => simp [gsStep, hfind, hhead] at h
    | some target =>
      have htmem : target ∈ s.pref := by
        cases hp : s.pref with
        | nil => rw [hp] at hhead; simp at hhead
        | cons a t =>
          rw [hp] at hhead
          simp only [List.head?_cons, Option.some.injEq] at hhead
          exact hhead ▸ List.mem_cons_self a t
      cases hfindr : rv.find? (fun x => x.name == target) with
      | none => simp [gsStep, hfind, hhead, hfindr] at h
      | some r =>
        have hrname : r.name = target := by
          have := List.find?_some hfindr
          simpa using this
        obtain ⟨pre, post, hrv, _, _, hupd⟩ :=
          find?_decomp (fun x : Player α => x.name == target)
            (fun x : Player α => { x with partner := some s.name }) hfindr
        cases hrp : r.partner with
        | none =>
          simp only [gsStep, hfind, hhead, hfindr, hrp] at h
          obtain ⟨rfl, rfl⟩ : su.set i { s with partner := some r.name } = su' ∧
              updateFirst (fun x => x.name == target)
                (fun x => { x with partner := some s.name }) rv = rv' := by
            simpa using h
          unfold gsMeasure
          have hsum : ((su.set i { s with partner := some r.name }).map
                (fun s => s.pref.length)).sum + s.pref.length =
              (su.map (fun s => s.pref.length)).sum + s.pref.length :=
            sum_map_set (fun s => s.pref.length) su i
              { s with partner := some r.name } s hgets
          have hcnt : (su.set i { s with partner := some r.name }).countP
                (fun s => s.partner.isNone) + 1 =
              su.countP (fun s => s.partner.isNone) := by
            have h0 := countP_set (fun s => s.partner.isNone) su i
              { s with partner := some r.name } s hgets
            simp only [hpnone] at h0
            simpa using h0
          rw [hupd, hrv]
          simp only [List.map_append, List.map_cons, List.sum_append, List.sum_cons]
          have hfree : revPotential r = r.pref.length := revPotential_of_none hrp
          have hnew : revPotential { r with partner := some s.name } =
              r.pref.indexOf s.name := rfl
          have hle : r.pref.indexOf s.name ≤ r.pref.length := List.indexOf_le_length
          simp only [Option.isNone_none] at hsum hcnt
          omega
        | some pName =>
          simp only [gsStep, hfind, hhead, hfindr, hrp] at h
          by_cases hsm : s.name ∈ r.pref
          · rw [if_pos hsm] at h
            by_cases hpm : pName ∈ r.pref
            · rw [if_pos hpm] at h
              by_cases hlt : r.pref.indexOf s.name < r.pref.indexOf pName
              · -- bump branch
                rw [if_pos hlt] at h
                obtain ⟨rfl, rfl⟩ : (updateFirst (fun x => x.name == pName)
                      (fun x => { x with partner := none }) su).set i
                        { s with partner := some r.name } = su' ∧
                    updateFirst (fun x => x.name == target)
                      (fun x => { x with partner := some s.name }) rv = rv' := by
                  simpa using h
                unfold gsMeasure
                set su1 := updateFirst (fun x => x.name == pName)
                  (fun x => { x with partner := none }) su with hsu1
                have hmap : su1.map (fun s => s.pref.length) =
                    su.map (fun s => s.pref.length) :=
                  map_updateFirst (fun s : Player α => s.pref.length)
                    (fun x : Player α => x.name == pName)
                    (fun x : Player α => { x with partner := none })
                    (fun y => rfl) su
                have hcnt1 : su1.countP (fun s => s.partner.isNone) ≤
                    su.countP (fun s => s.partner.isNone) + 1 :=
                  countP_updateFirst_le _ _ _ su
                have hget1 : su1.get? i = some s ∨
                    su1.get? i = some { s with partner := none } := by
                  rcases get?_updateFirst (fun x => x.name == pName)
                      (fun x => { x with partner := none }) su i with h1 | ⟨x, hx, h1⟩
                  · exact Or.inl (h1.trans hgets)
                  · rw [hgets] at hx
                    injection hx with hx
                    subst hx
                    exact Or.inr h1
                have hrvsum : (rv.map revPotential).sum =
                    (pre.map revPotential).sum + revPotential r +
                      (post.map revPotential).sum := by
                  rw [hrv]
                  simp [List.sum_append]
                  omega
                have hrvsum2 : ((updateFirst (fun x => x.name == target)
                    (fun x => { x with partner := some s.name }) rv).map
                      revPotential).sum =
                    (pre.map revPotential).sum + r.pref.indexOf s.name +
                      (post.map revPotential).sum := by
                  rw [hupd]
                  simp only [List.map_append, List.map_cons, List.sum_append,
                    List.sum_cons]
                  have hrp2 : revPotential { r with partner := some s.name } =
                      r.pref.indexOf s.name := rfl
                  omega
                have hrold : revPotential r = r.pref.indexOf pName :=
                  revPotential_of_some hrp
                rcases hget1 with hy | hy
                · have hsum : ((su1.set i { s with partner := some r.name }).map
                        (fun s => s.pref.length)).sum + s.pref.length =
                      (su1.map (fun s => s.pref.length)).sum + s.pref.length :=
                    sum_map_set (fun s => s.pref.length) su1 i
                      { s with partner := some r.name } s hy
                  have hcnt : (su1.set i { s with partner := some r.name }).countP
                        (fun s => s.partner.isNone) + 1 =
                      su1.countP (fun s => s.partner.isNone) := by
                    have h0 := countP_set (fun s => s.partner.isNone) su1 i
                      { s with partner := some r.name } s hy
                    simp only [hpnone] at h0
                    simpa using h0
                  rw [hmap] at hsum
                  omega
                · have hsum : ((su1.set i { s with partner := some r.name }).map
                        (fun s => s.pref.length)).sum + s.pref.length =
                      (su1.map (fun s => s.pref.length)).sum + s.pref.length :=
                    sum_map_set (fun s => s.pref.length) su1 i
                      { s with partner := some r.name } { s with partner := none } hy
                  have hcnt : (su1.set i { s with partner := some r.name }).countP
                        (fun s => s.partner.isNone) + 1 =
                      su1.countP (fun s => s.partner.isNone) := by
                    have h0 := countP_set (fun s => s.partner.isNone) su1 i
                      { s with partner := some r.name } { s with partner := none } hy
                    simpa using h0
                  rw [hmap] at hsum
                  omega
              · -- removal branch
                rw [if_neg hlt] at h
                obtain ⟨rfl, rfl⟩ : su.set i { s with pref := s.pref.erase r.name } = su' ∧
                    rv = rv' := by simpa using h
                unfold gsMeasure
                have hrmem : r.name ∈ s.pref := hrname ▸ htmem
                have herase : (s.pref.erase r.name).length = s.pref.length - 1 :=
                  List.length_erase_of_mem hrmem
                have hpos : 0 < s.pref.length := List.length_pos_of_mem hrmem
                have hsum : ((su.set i { s with pref := s.pref.erase r.name }).map
                      (fun s => s.pref.length)).sum + s.pref.length =
                    (su.map (fun s => s.pref.length)).sum +
                      (s.pref.erase r.name).length :=
                  sum_map_set (fun s => s.pref.length) su i
                    { s with pref := s.pref.erase r.name } s hgets
                have hcnt : (su.set i { s with pref := s.pref.erase r.name }).countP
                      (fun s => s.partner.isNone) =
                    su.countP (fun s => s.partner.isNone) := by
                  have h0 := countP_set (fun s => s.partner.isNone) su i
                    { s with pref := s.pref.erase r.name } s hgets
                  simpa using h0
                omega
            · rw [if_neg hpm] at h
              simp at h
          · rw [if_neg hsm] at h
            simp at h

/-- With fuel exceeding the measure, the loop cannot run out of fuel: the model
with fuel `gsMeasure su rv + 1` is the unbounded Python `while` loop. -/
theorem gsLoop_ne_fuelOut :
    ∀ {fuel : Nat} {su rv : List (Player α)}, gsMeasure su rv < fuel →
      gsLoop fuel su rv ≠ .fuelOut := by
  intro fuel
  induction fuel with
  | zero => intro su rv h; exact absurd h (Nat.not_lt_zero _)
  | succ n ih =>
    intro su rv h
    cases hstep : gsStep su rv with
    | error e => simp [gsLoop, hstep]
    | ok o =>
      cases o with
      | none => simp [gsLoop, hstep]
      | some p =>
        obtain ⟨su2, rv2⟩ := p
        have hm := gsStep_measure_lt hstep
        have hn : gsMeasure su2 rv2 < n := by omega
        cases hloop : gsLoop n su2 rv2 with
        | done sf rf k => simp [gsLoop, hstep, hloop]
        | err e => simp [gsLoop, hstep, hloop]
        | fuelOut => exact absurd hloop (ih hn)

/-! ## Support lemmas for the loop invariant -/

theorem head?_drop_eq_get? : ∀ (l : List β) (k : Nat), (l.drop k).head? = l.get? k
  | [], k => by cases k <;> simp
  | x :: xs, 0 => rfl
  | x :: xs, k + 1 => by simpa using head?_drop_eq_get? xs k

theorem nodup_indexOf_eq [DecidableEq γ] :
    ∀ {l : List γ} {k : Nat} {t : γ}, l.Nodup → l.get? k = some t → l.indexOf t = k
  | [], k, t, _, h => by simp at h
  | x :: xs, 0, t, _, h => by
    obtain rfl : x = t := by simpa using h
    simp
  | x :: xs, k + 1, t, hnd, h => by
    have h2 : xs.get? k = some t := by simpa using h
    have htx : t ∈ xs := List.get?_mem h2
    have hne : t ≠ x := fun hc => (List.nodup_cons.1 hnd).1 (hc ▸ htx)
    rw [List.indexOf_cons_ne _ (Ne.symm hne), nodup_indexOf_eq (List.nodup_cons.1 hnd).2 h2]

theorem get?_indexOf [DecidableEq γ] :
    ∀ {l : List γ} {a : γ}, a ∈ l → l.get? (l.indexOf a) = some a
  | [], a, h => absurd h (by simp)
  | x :: xs, a, h => by
    by_cases hax : a = x
    · subst hax
      simp
    · rw [List.indexOf_cons_ne _ (fun hc => hax hc.symm)]
      have h2 : a ∈ xs := by
        rcases List.mem_cons.1 h with hc | hc
        · exact absurd hc hax
        · exact hc
      simpa using get?_indexOf h2

theorem indexOf_inj [DecidableEq γ] {l : List γ} {a b : γ}
    (ha : a ∈ l) (hb : b ∈ l) (h : l.indexOf a = l.indexOf b) : a = b := by
  have h1 := get?_indexOf ha
  have h2 := get?_indexOf hb
  rw [h, h2] at h1
  injection h1 with h1
  exact h1.symm

theorem eq_of_name_mem {l : List (Player α)} (hnd : (l.map Player.name).Nodup)
    {x y : Player α} (hx : x ∈ l) (hy : y ∈ l) (h : x.name = y.name) : x = y :=
  List.inj_on_of_nodup_map hnd hx hy h

theorem exists_mem_name {l : List (Player α)} {N : List α}
    (hperm : (l.map Player.name).Perm N) {t : α} (ht : t ∈ N) :
    ∃ x ∈ l, x.name = t := by
  have : t ∈ l.map Player.name := hperm.mem_iff.2 ht
  obtain ⟨x, hx, hxt⟩ := List.mem_map.1 this
  exact ⟨x, hx, hxt⟩

theorem name_mem_of_mem {l : List (Player α)} {N : List α}
    (hperm : (l.map Player.name).Perm N) {x : Player α} (hx : x ∈ l) : x.name ∈ N :=
  hperm.mem_iff.1 (List.mem_map_of_mem Player.name hx)

theorem updateFirst_decomp (q : β → Bool) (g : β → β) :
    ∀ {l : List β}, (∃ x ∈ l, q x = true) →
      ∃ pre x post, l = pre ++ x :: post ∧ q x = true ∧ (∀ y ∈ pre, q y = false) ∧
        updateFirst q g l = pre ++ g x :: post
  | [], h => absurd h (by simp)
  | z :: zs, h => by
    cases hq : q z
    · obtain ⟨x, hx, hqx⟩ := h
      have hxz : x ∈ zs := by
        rcases List.mem_cons.1 hx with rfl | hc
        · rw [hq] at hqx; exact absurd hqx (by simp)
        · exact hc
      obtain ⟨pre, x', post, heq, hqx', hpre, hupd⟩ :=
        updateFirst_decomp q g ⟨x, hxz, hqx⟩
      refine ⟨z :: pre, x', post, by rw [heq]; rfl, hqx', ?_, ?_⟩
      · intro y hy
        rcases List.mem_cons.1 hy with rfl | hy
        · exact hq
        · exact hpre y hy
      · rw [updateFirst_cons_neg hq, hupd]
        rfl
    · exact ⟨[], z, zs, rfl, hq, by simp, by simp [updateFirst_cons_pos hq]⟩

theorem get?_append_cons_ne {pre post : List β} {x y : β} {i : Nat}
    (h : i ≠ pre.length) : (pre ++ x :: post).get? i = (pre ++ y :: post).get? i := by
  rcases Nat.lt_or_ge i pre.length with h1 | h1
  · rw [List.get?_append h1, List.get?_append h1]
  · have h2 : pre.length < i := lt_of_le_of_ne h1 (Ne.symm h)
    obtain ⟨m, hm⟩ : ∃ m, i - pre.length = m + 1 :=
      ⟨i - pre.length - 1, by omega⟩
    rw [List.get?_append_right h1, List.get?_append_right h1, hm]
    rfl

theorem map_name_set_eq {su : List (Player α)} {i : Nat} {s x : Player α}
    (hget : su.get? i = some s) (hname : x.name = s.name) :
    (su.set i x).map Player.name = su.map Player.name := by
  rw [map_set]
  apply set_some_self
  rw [List.get?_map, hget]
  simp [hname]

theorem beq_name_eq {x : Player α} {t : α} (h : (x.name == t) = true) : x.name = t := by
  simpa using h

theorem self_mem_middle (pre : List β) (x : β) (post : List β) :
    x ∈ pre ++ x :: post :=
  List.mem_append_right _ (List.mem_cons_self x post)

theorem nodup_middle_name {pre post : List (Player α)} {r : Player α}
    (h : ((pre ++ r :: post).map Player.name).Nodup) :
    (∀ y ∈ pre, y.name ≠ r.name) ∧ ∀ y ∈ post, y.name ≠ r.name := by
  simp only [List.map_append, List.map_cons] at h
  rw [List.nodup_middle] at h
  have h2 : r.name ∉ pre.map Player.name ++ post.map Player.name :=
    (List.nodup_cons.1 h).1
  constructor
  · intro y hy hc
    exact h2 (List.mem_append_left _ (hc ▸ List.mem_map_of_mem Player.name hy))
  · intro y hy hc
    exact h2 (List.mem_append_right _ (hc ▸ List.mem_map_of_mem Player.name hy))

theorem lt_length_of_get?_some {l : List β} {i : Nat} {x : β}
    (h : l.get? i = some x) : i < l.length := by
  by_contra hc
  rw [List.get?_eq_none.2 (by omega)] at h
  exact absurd h (by simp)

/-- Invariant preservation and potential decrease for the branch of the
proposal loop in which the proposed reviewer is free and the pair is formed
(lines 192-194). -/
theorem pair_branch {SN RN : List α} {su rv : List (Player α)}
    (hSN : SN.Nodup) (hRN : RN.Nodup) (hlen : SN.length = RN.length)
    (hinv : GSInv SN RN su rv)
    {i : Nat} {s : Player α} (hgets : su.get? i = some s) (hspn : s.partner = none)
    {k : Nat} (hk : s.pref = RN.drop k) (hki : k ≤ SN.indexOf s.name)
    {target : α} (htg : RN.get? k = some target)
    {r : Player α} {pre post : List (Player α)}
    (hrv : rv = pre ++ r :: post) (hrname : r.name = target)
    (hrp : r.partner = none) :
    GSInv SN RN (su.set i { s with partner := some r.name })
        (pre ++ { r with partner := some s.name } :: post) ∧
      phi SN RN (su.set i { s with partner := some r.name })
          (pre ++ { r with partner := some s.name } :: post) <
        phi SN RN su rv := by
  have hs_mem : s ∈ su := List.get?_mem hgets
  have hilen : i < su.length := lt_length_of_get?_some hgets
  have hsuN : (su.map Player.name).Nodup := hinv.sperm.nodup_iff.2 hSN
  have hrvN : (rv.map Player.name).Nodup := hinv.rperm.nodup_iff.2 hRN
  have hsnSN : s.name ∈ SN := name_mem_of_mem hinv.sperm hs_mem
  have his : SN.indexOf s.name < SN.length := List.indexOf_lt_length.2 hsnSN
  have hkRN : k < RN.length := by omega
  have hjk : RN.indexOf target = k := nodup_indexOf_eq hRN htg
  have hr_mem : r ∈ rv := by rw [hrv]; exact self_mem_middle pre r post
  have hrnameRN : r.name ∈ RN := name_mem_of_mem hinv.rperm hr_mem
  have hmapsu : (su.set i { s with partner := some r.name }).map Player.name =
      su.map Player.name := map_name_set_eq hgets rfl
  have hmaprv : ((pre ++ { r with partner := some s.name } :: post).map Player.name) =
      rv.map Player.name := by rw [hrv]; simp
  have hsuN2 : ((su.set i { s with partner := some r.name }).map Player.name).Nodup := by
    rw [hmapsu]; exact hsuN
  have hrvN2 : ((pre ++ { r with partner := some s.name } :: post).map
      Player.name).Nodup := by rw [hmaprv]; exact hrvN
  have hs1_mem : ({ s with partner := some r.name } : Player α) ∈
      su.set i { s with partner := some r.name } := mem_set_self su i _ hilen
  have hr1_mem : ({ r with partner := some s.name } : Player α) ∈
      pre ++ { r with partner := some s.name } :: post := self_mem_middle _ _ _
  have hmem_rv_of : ∀ {y : Player α}, y ∈ pre ∨ y ∈ post → y ∈ rv := by
    intro y hy
    rw [hrv]
    rcases hy with hy | hy
    · exact List.mem_append_left _ hy
    · exact List.mem_append_right _ (List.mem_cons_of_mem r hy)
  constructor
  · refine ⟨?_, ?_, ?_, ?_, ?_, ?_⟩
    · rw [hmapsu]; exact hinv.sperm
    · rw [hmaprv]; exact hinv.rperm
    · -- rpref
      intro r2 hr2
      rcases List.mem_append.1 hr2 with h2 | h2
      · exact hinv.rpref r2 (hmem_rv_of (Or.inl h2))
      · rcases List.mem_cons.1 h2 with rfl | h2
        · exact hinv.rpref r hr_mem
        · exact hinv.rpref r2 (hmem_rv_of (Or.inr h2))
    · -- spref
      intro s2 hs2
      rcases mem_set su i _ s2 hs2 with rfl | h2
      · exact ⟨k, hk, hki⟩
      · exact hinv.spref s2 h2
    · -- sptr
      intro s2 hs2 t hpt
      rcases mem_set su i _ s2 hs2 with rfl | h2
      · obtain rfl : r.name = t := by
          simpa using hpt
        refine ⟨hrnameRN, ?_⟩
        intro r2 hr2 hr2name
        have : r2 = { r with partner := some s.name } :=
          eq_of_name_mem hrvN2 hr2 hr1_mem hr2name
        rw [this]
      · obtain ⟨htRN2, hback⟩ := hinv.sptr s2 h2 t hpt
        refine ⟨htRN2, ?_⟩
        intro r2 hr2 hr2name
        rcases List.mem_append.1 hr2 with h3 | h3
        · exact hback r2 (hmem_rv_of (Or.inl h3)) hr2name
        · rcases List.mem_cons.1 h3 with rfl | h3
          · have := hback r hr_mem hr2name
            rw [hrp] at this
            exact absurd this (by simp)
          · exact hback r2 (hmem_rv_of (Or.inr h3)) hr2name
    · -- rptr
      intro r2 hr2 u hpu
      rcases List.mem_append.1 hr2 with h2 | h2
      case inr =>
        rcases List.mem_cons.1 h2 with rfl | h2
        · obtain rfl : s.name = u := by simpa using hpu
          refine ⟨hsnSN, ?_, ?_⟩
          · show RN.indexOf r.name ≤ SN.indexOf s.name
            rw [hrname, hjk]
            exact hki
          · intro s2 hs2 hs2name
            have : s2 = { s with partner := some r.name } :=
              eq_of_name_mem hsuN2 hs2 hs1_mem hs2name
            rw [this]
        · obtain ⟨huSN, hrank, hback⟩ := hinv.rptr r2 (hmem_rv_of (Or.inr h2)) u hpu
          refine ⟨huSN, hrank, ?_⟩
          intro s2 hs2 hs2name
          rcases mem_set su i _ s2 hs2 with rfl | h3
          · have := hback s hs_mem hs2name
            rw [hspn] at this
            exact absurd this (by simp)
          · exact hback s2 h3 hs2name
      case inl =>
        obtain ⟨huSN, hrank, hback⟩ := hinv.rptr r2 (hmem_rv_of (Or.inl h2)) u hpu
        refine ⟨huSN, hrank, ?_⟩
        intro s2 hs2 hs2name
        rcases mem_set su i _ s2 hs2 with rfl | h3
        · have := hback s hs_mem hs2name
          rw [hspn] at this
          exact absurd this (by simp)
        · exact hback s2 h3 hs2name
  · -- potential decrease
    unfold phi
    have hsum : ((su.set i { s with partner := some r.name }).map
          (fun x => SN.indexOf x.name - (RN.length - x.pref.length))).sum +
          (SN.indexOf s.name - (RN.length - s.pref.length)) =
        (su.map (fun x => SN.indexOf x.name - (RN.length - x.pref.length))).sum +
          (SN.indexOf s.name - (RN.length - s.pref.length)) :=
      sum_map_set _ su i _ s hgets
    rw [hrv]
    simp only [List.map_append, List.map_cons, List.sum_append, List.sum_cons, hrp,
      hrname, hjk]
    rw [hrname] at hsum
    omega

theorem get?_middle : ∀ (pre : List β) (x : β) (post : List β),
    (pre ++ x :: post).get? pre.length = some x
  | [], x, post => rfl
  | y :: pre, x, post => by simpa using get?_middle pre x post

/-- Invariant preservation and potential decrease for the branch of the
proposal loop in which the proposed reviewer is engaged but prefers the
proposer: the old partner is bumped and the new pair is formed
(lines 195-199). -/
theorem bump_branch {SN RN : List α} {su rv : List (Player α)}
    (hSN : SN.Nodup) (hRN : RN.Nodup) (hlen : SN.length = RN.length)
    (hinv : GSInv SN RN su rv)
    {i : Nat} {s : Player α} (hgets : su.get? i = some s) (hspn : s.partner = none)
    {k : Nat} (hk : s.pref = RN.drop k) (hki : k ≤ SN.indexOf s.name)
    {target : α} (htg : RN.get? k = some target)
    {r : Player α} {pre post : List (Player α)}
    (hrv : rv = pre ++ r :: post) (hrname : r.name = target)
    {pName : α} (hrp : r.partner = some pName)
    (hlt : r.pref.indexOf s.name < r.pref.indexOf pName) :
    GSInv SN RN ((updateFirst (fun x => x.name == pName)
          (fun x => { x with partner := none }) su).set i
            { s with partner := some r.name })
        (pre ++ { r with partner := some s.name } :: post) ∧
      phi SN RN ((updateFirst (fun x => x.name == pName)
            (fun x => { x with partner := none }) su).set i
              { s with partner := some r.name })
          (pre ++ { r with partner := some s.name } :: post) <
        phi SN RN su rv := by
  have hs_mem : s ∈ su := List.get?_mem hgets
  have hilen : i < su.length := lt_length_of_get?_some hgets
  have hsuN : (su.map Player.name).Nodup := hinv.sperm.nodup_iff.2 hSN
  have hrvN : (rv.map Player.name).Nodup := hinv.rperm.nodup_iff.2 hRN
  have hsnSN : s.name ∈ SN := name_mem_of_mem hinv.sperm hs_mem
  have his : SN.indexOf s.name < SN.length := List.indexOf_lt_length.2 hsnSN
  have hkRN : k < RN.length := by omega
  have hjk : RN.indexOf target = k := nodup_indexOf_eq hRN htg
  have hr_mem : r ∈ rv := by rw [hrv]; exact self_mem_middle pre r post
  have hrnameRN : r.name ∈ RN := name_mem_of_mem hinv.rperm hr_mem
  have hrpSN : r.pref = SN := hinv.rpref r hr_mem
  obtain ⟨hpSN, hrankrp, hbackp⟩ := hinv.rptr r hr_mem pName hrp
  rw [hrpSN] at hlt
  have hne_sp : s.name ≠ pName := by
    intro hc
    have := hbackp s hs_mem hc
    rw [hspn] at this
    exact absurd this (by simp)
  obtain ⟨os0, hos0_mem, hos0name⟩ := exists_mem_name hinv.sperm hpSN
  obtain ⟨pre1, os1, post1, hsu, hqos1, hpre1, hupd1⟩ :=
    updateFirst_decomp (fun x : Player α => x.name == pName)
      (fun x : Player α => { x with partner := none })
      ⟨os0, hos0_mem, by simp [hos0name]⟩
  have hos1name : os1.name = pName := beq_name_eq hqos1
  have hos1_mem : os1 ∈ su := by rw [hsu]; exact self_mem_middle pre1 os1 post1
  have hos1p : os1.partner = some r.name := hbackp os1 hos1_mem hos1name
  have hmid1 : (∀ y ∈ pre1, y.name ≠ os1.name) ∧ ∀ y ∈ post1, y.name ≠ os1.name :=
    nodup_middle_name (by rw [← hsu]; exact hsuN)
  have hne_i : i ≠ pre1.length := by
    intro hc
    rw [hsu, hc, get?_middle pre1 os1 post1] at hgets
    injection hgets with hgets
    rw [hgets, hspn] at hos1p
    exact absurd hos1p (by simp)
  have hupd1' : updateFirst (fun x : Player α => x.name == pName)
      (fun x : Player α => { x with partner := none }) su =
        pre1 ++ { os1 with partner := none } :: post1 := hupd1
  have hgets1 : (updateFirst (fun x : Player α => x.name == pName)
      (fun x : Player α => { x with partner := none }) su).get? i = some s := by
    rw [hupd1', get?_append_cons_ne hne_i, ← hsu]
    exact hgets
  have hilen1 : i < (updateFirst (fun x : Player α => x.name == pName)
      (fun x : Player α => { x with partner := none }) su).length :=
    lt_length_of_get?_some hgets1
  have hmap1 : (updateFirst (fun x : Player α => x.name == pName)
      (fun x : Player α => { x with partner := none }) su).map Player.name =
        su.map Player.name :=
    map_updateFirst Player.name (fun x : Player α => x.name == pName)
      (fun x : Player α => { x with partner := none }) (fun y => rfl) su
  have hmapsu : (((updateFirst (fun x : Player α => x.name == pName)
      (fun x : Player α => { x with partner := none }) su).set i
        { s with partner := some r.name }).map Player.name) = su.map Player.name := by
    have h5 := @map_name_set_eq α _
      (updateFirst (fun x : Player α => x.name == pName)
        (fun x : Player α => { x with partner := none }) su) i s
      { s with partner := some r.name } hgets1 rfl
    exact h5.trans hmap1
  have hmaprv : ((pre ++ { r with partner := some s.name } :: post).map Player.name) =
      rv.map Player.name := by rw [hrv]; simp
  have hsuN2 : (((updateFirst (fun x : Player α => x.name == pName)
      (fun x : Player α => { x with partner := none }) su).set i
        { s with partner := some r.name }).map Player.name).Nodup := by
    rw [hmapsu]; exact hsuN
  have hrvN2 : ((pre ++ { r with partner := some s.name } :: post).map
      Player.name).Nodup := by rw [hmaprv]; exact hrvN
  have hs1_mem : ({ s with partner := some r.name } : Player α) ∈
      (updateFirst (fun x : Player α => x.name == pName)
        (fun x : Player α => { x with partner := none }) su).set i
          { s with partner := some r.name } := mem_set_self _ i _ hilen1
  have hr1_mem : ({ r with partner := some s.name } : Player α) ∈
      pre ++ { r with partner := some s.name } :: post := self_mem_middle _ _ _
  have hmem_rv_of : ∀ {y : Player α}, y ∈ pre ∨ y ∈ post → y ∈ rv := by
    intro y hy
    rw [hrv]
    rcases hy with hy | hy
    · exact List.mem_append_left _ hy
    · exact List.mem_append_right _ (List.mem_cons_of_mem r hy)
  have hmem_su_of : ∀ {y : Player α}, y ∈ pre1 ∨ y ∈ post1 → y ∈ su := by
    intro y hy
    rw [hsu]
    rcases hy with hy | hy
    · exact List.mem_append_left _ hy
    · exact List.mem_append_right _ (List.mem_cons_of_mem os1 hy)
  have hmid : (∀ y ∈ pre, y.name ≠ r.name) ∧ ∀ y ∈ post, y.name ≠ r.name :=
    nodup_middle_name (by rw [← hrv]; exact hrvN)
  have hprov : ∀ {s2 : Player α},
      s2 ∈ (updateFirst (fun x : Player α => x.name == pName)
        (fun x : Player α => { x with partner := none }) su).set i
          { s with partner := some r.name } →
      s2 = { s with partner := some r.name } ∨ s2 = { os1 with partner := none } ∨
        (s2 ∈ su ∧ s2.name ≠ pName) := by
    intro s2 hs2
    rcases mem_set _ i _ s2 hs2 with h2 | h2
    · exact Or.inl h2
    · rw [hupd1'] at h2
      rcases List.mem_append.1 h2 with h3 | h3
      · refine Or.inr (Or.inr ⟨hmem_su_of (Or.inl h3), ?_⟩)
        exact fun hc => hmid1.1 s2 h3 (hc.trans hos1name.symm)
      · rcases List.mem_cons.1 h3 with rfl | h3
        · exact Or.inr (Or.inl rfl)
        · refine Or.inr (Or.inr ⟨hmem_su_of (Or.inr h3), ?_⟩)
          exact fun hc => hmid1.2 s2 h3 (hc.trans hos1name.symm)
  constructor
  · refine ⟨?_, ?_, ?_, ?_, ?_, ?_⟩
    · rw [hmapsu]; exact hinv.sperm
    · rw [hmaprv]; exact hinv.rperm
    · -- rpref
      intro r2 hr2
      rcases List.mem_append.1 hr2 with h2 | h2
      · exact hinv.rpref r2 (hmem_rv_of (Or.inl h2))
      · rcases List.mem_cons.1 h2 with rfl | h2
        · exact hinv.rpref r hr_mem
        · exact hinv.rpref r2 (hmem_rv_of (Or.inr h2))
    · -- spref
      intro s2 hs2
      rcases hprov hs2 with rfl | rfl | ⟨h2, _⟩
      · exact ⟨k, hk, hki⟩
      · obtain ⟨k2, hk2, hki2⟩ := hinv.spref os1 hos1_mem
        exact ⟨k2, hk2, hki2⟩
      · exact hinv.spref s2 h2
    · -- sptr
      intro s2 hs2 t hpt
      rcases hprov hs2 with rfl | rfl | ⟨h2, hs2ne⟩
      · obtain rfl : r.name = t := by simpa using hpt
        refine ⟨hrnameRN, ?_⟩
        intro r2 hr2 hr2name
        have : r2 = { r with partner := some s.name } :=
          eq_of_name_mem hrvN2 hr2 hr1_mem hr2name
        rw [this]
      · exact absurd hpt (by simp)
      · obtain ⟨htRN2, hback⟩ := hinv.sptr s2 h2 t hpt
        refine ⟨htRN2, ?_⟩
        intro r2 hr2 hr2name
        rcases List.mem_append.1 hr2 with h3 | h3
        · exact hback r2 (hmem_rv_of (Or.inl h3)) hr2name
        · rcases List.mem_cons.1 h3 with rfl | h3
          · have h4 := hback r hr_mem hr2name
            rw [hrp] at h4
            injection h4 with h4
            exact absurd h4.symm hs2ne
          · exact hback r2 (hmem_rv_of (Or.inr h3)) hr2name
    · -- rptr
      intro r2 hr2 u hpu
      rcases List.mem_append.1 hr2 with h2 | h2
      case inr =>
        rcases List.mem_cons.1 h2 with rfl | h2
        · obtain rfl : s.name = u := by simpa using hpu
          refine ⟨hsnSN, ?_, ?_⟩
          · show RN.indexOf r.name ≤ SN.indexOf s.name
            rw [hrname, hjk]
            exact hki
          · intro s2 hs2 hs2name
            have : s2 = { s with partner := some r.name } :=
              eq_of_name_mem hsuN2 hs2 hs1_mem hs2name
            rw [this]
        · obtain ⟨huSN, hrank, hback⟩ := hinv.rptr r2 (hmem_rv_of (Or.inr h2)) u hpu
          refine ⟨huSN, hrank, ?_⟩
          intro s2 hs2 hs2name
          rcases hprov hs2 with rfl | rfl | ⟨h3, _⟩
          · have h4 := hback s hs_mem hs2name
            rw [hspn] at h4
            exact absurd h4 (by simp)
          · have h4 := hback os1 hos1_mem hs2name
            rw [hos1p] at h4
            injection h4 with h4
            exact absurd h4.symm (hmid.2 r2 h2)
          · exact hback s2 h3 hs2name
      case inl =>
        obtain ⟨huSN, hrank, hback⟩ := hinv.rptr r2 (hmem_rv_of (Or.inl h2)) u hpu
        refine ⟨huSN, hrank, ?_⟩
        intro s2 hs2 hs2name
        rcases hprov hs2 with rfl | rfl | ⟨h3, _⟩
        · have h4 := hback s hs_mem hs2name
          rw [hspn] at h4
          exact absurd h4 (by simp)
        · have h4 := hback os1 hos1_mem hs2name
          rw [hos1p] at h4
          injection h4 with h4
          exact absurd h4.symm (hmid.1 r2 h2)
        · exact hback s2 h3 hs2name
  · -- potential decrease
    unfold phi
    have hmapphi : (updateFirst (fun x : Player α => x.name == pName)
        (fun x : Player α => { x with partner := none }) su).map
          (fun x => SN.indexOf x.name - (RN.length - x.pref.length)) =
        su.map (fun x => SN.indexOf x.name - (RN.length - x.pref.length)) :=
      map_updateFirst (fun x : Player α => SN.indexOf x.name - (RN.length - x.pref.length))
        (fun x : Player α => x.name == pName)
        (fun x : Player α => { x with partner := none }) (fun y => rfl) su
    have hsum : (((updateFirst (fun x : Player α => x.name == pName)
          (fun x : Player α => { x with partner := none }) su).set i
            { s with partner := some r.name }).map
          (fun x => SN.indexOf x.name - (RN.length - x.pref.length))).sum +
          (SN.indexOf s.name - (RN.length - s.pref.length)) =
        ((updateFirst (fun x : Player α => x.name == pName)
          (fun x : Player α => { x with partner := none }) su).map
            (fun x => SN.indexOf x.name - (RN.length - x.pref.length))).sum +
          (SN.indexOf s.name - (RN.length - s.pref.length)) :=
      sum_map_set _ _ i _ s hgets1
    rw [hmapphi] at hsum
    rw [hrv]
    simp only [List.map_append, List.map_cons, List.sum_append, List.sum_cons, hrp,
      hrname, hjk]
    rw [hrname] at hsum
    omega

theorem drop_eq_cons_of_get? :
    ∀ {l : List β} {k : Nat} {x : β}, l.get? k = some x →
      l.drop k = x :: l.drop (k + 1)
  | [], k, x, h => by simp at h
  | y :: ys, 0, x, h => by
    obtain rfl : y = x := by simpa using h
    rfl
  | y :: ys, k + 1, x, h => by
    have h2 : ys.get? k = some x := by simpa using h
    simpa using drop_eq_cons_of_get? h2

/-- Invariant preservation and potential decrease for the branch of the
proposal loop in which the proposed reviewer keeps its current partner and the
proposer removes the reviewer from its remaining preference list (line 201). -/
theorem remove_branch {SN RN : List α} {su rv : List (Player α)}
    (hSN : SN.Nodup) (hRN : RN.Nodup) (hlen : SN.length = RN.length)
    (hinv : GSInv SN RN su rv)
    {i : Nat} {s : Player α} (hgets : su.get? i = some s) (hspn : s.partner = none)
    {k : Nat} (hk : s.pref = RN.drop k) (hki : k ≤ SN.indexOf s.name)
    {target : α} (htg : RN.get? k = some target)
    {r : Player α} (hr_mem : r ∈ rv) (hrname : r.name = target)
    {pName : α} (hrp : r.partner = some pName)
    (hge : ¬ r.pref.indexOf s.name < r.pref.indexOf pName) :
    GSInv SN RN (su.set i { s with pref := s.pref.erase r.name }) rv ∧
      phi SN RN (su.set i { s with pref := s.pref.erase r.name }) rv <
        phi SN RN su rv := by
  have hs_mem : s ∈ su := List.get?_mem hgets
  have hilen : i < su.length := lt_length_of_get?_some hgets
  have hsuN : (su.map Player.name).Nodup := hinv.sperm.nodup_iff.2 hSN
  have hsnSN : s.name ∈ SN := name_mem_of_mem hinv.sperm hs_mem
  have his : SN.indexOf s.name < SN.length := List.indexOf_lt_length.2 hsnSN
  have hkRN : k < RN.length := by omega
  have hjk : RN.indexOf target = k := nodup_indexOf_eq hRN htg
  have hrpSN : r.pref = SN := hinv.rpref r hr_mem
  obtain ⟨hpSN, hrankrp, hbackp⟩ := hinv.rptr r hr_mem pName hrp
  rw [hrpSN] at hge
  have hne_sp : s.name ≠ pName := by
    intro hc
    have := hbackp s hs_mem hc
    rw [hspn] at this
    exact absurd this (by simp)
  have hplt : SN.indexOf pName < SN.indexOf s.name := by
    rcases Nat.lt_or_ge (SN.indexOf pName) (SN.indexOf s.name) with h1 | h1
    · exact h1
    · have heq : SN.indexOf s.name = SN.indexOf pName := by omega
      exact absurd (indexOf_inj hsnSN hpSN heq) hne_sp
  have hjr : RN.indexOf r.name = k := by rw [hrname]; exact hjk
  have hkip : k ≤ SN.indexOf pName := by omega
  have hks : k < SN.indexOf s.name := by omega
  have herase : s.pref.erase r.name = RN.drop (k + 1) := by
    rw [hk, drop_eq_cons_of_get? htg, hrname]
    exact List.erase_cons_head target _
  have hmapsu : ((su.set i { s with pref := s.pref.erase r.name }).map Player.name) =
      su.map Player.name := by
    have h5 := @map_name_set_eq α _ su i s
      { s with pref := s.pref.erase r.name } hgets rfl
    exact h5
  have hsuN2 : (((su.set i { s with pref := s.pref.erase r.name })).map
      Player.name).Nodup := by rw [hmapsu]; exact hsuN
  constructor
  · refine ⟨?_, hinv.rperm, hinv.rpref, ?_, ?_, ?_⟩
    · rw [hmapsu]; exact hinv.sperm
    · -- spref
      intro s2 hs2
      rcases mem_set su i _ s2 hs2 with rfl | h2
      · exact ⟨k + 1, herase, show k + 1 ≤ SN.indexOf s.name by omega⟩
      · exact hinv.spref s2 h2
    · -- sptr
      intro s2 hs2 t hpt
      rcases mem_set su i _ s2 hs2 with rfl | h2
      · have h3 : s.partner = some t := hpt
        rw [hspn] at h3
        exact absurd h3 (by simp)
      · exact hinv.sptr s2 h2 t hpt
    · -- rptr
      intro r2 hr2 u hpu
      obtain ⟨huSN, hrank, hback⟩ := hinv.rptr r2 hr2 u hpu
      refine ⟨huSN, hrank, ?_⟩
      intro s2 hs2 hs2name
      rcases mem_set su i _ s2 hs2 with rfl | h3
      · have h4 := hback s hs_mem hs2name
        rw [hspn] at h4
        exact absurd h4 (by simp)
      · exact hback s2 h3 hs2name
  · -- potential decrease
    unfold phi
    have hsum : ((su.set i { s with pref := s.pref.erase r.name }).map
          (fun x => SN.indexOf x.name - (RN.length - x.pref.length))).sum +
          (SN.indexOf s.name - (RN.length - s.pref.length)) =
        (su.map (fun x => SN.indexOf x.name - (RN.length - x.pref.length))).sum +
          (SN.indexOf s.name - (RN.length - (s.pref.erase r.name).length)) :=
      sum_map_set _ su i _ s hgets
    have hlen1 : s.pref.length = RN.length - k := by
      rw [hk, List.length_drop]
    have hlen2 : (s.pref.erase r.name).length = RN.length - (k + 1) := by
      rw [herase, List.length_drop]
    omega

/-- One-step specification of the proposal loop under the invariant: either
every proposer is matched and the loop exits, or the step succeeds (no Python
exception is raised), preserves the invariant, and strictly decreases the
potential `phi`. -/
theorem gsStep_spec {SN RN : List α} {su rv : List (Player α)}
    (hSN : SN.Nodup) (hRN : RN.Nodup) (hlen : SN.length = RN.length)
    (hinv : GSInv SN RN su rv) :
    (gsStep su rv = .ok none ∧ ∀ s ∈ su, s.partner.isSome) ∨
    ∃ su' rv', gsStep su rv = .ok (some (su', rv')) ∧ GSInv SN RN su' rv' ∧
      phi SN RN su' rv' < phi SN RN su rv := by
  cases hfind : findIdxElem? (fun s => s.partner.isNone) su with
  | none =>
    left
    refine ⟨by simp [gsStep, hfind], ?_⟩
    intro s hs
    have h1 := findIdxElem?_none _ hfind s hs
    cases hsp : s.partner with
    | none => rw [hsp] at h1; simp at h1
    | some t => simp
  | some ix =>
    right
    obtain ⟨i, s⟩ := ix
    obtain ⟨hgets, hpnone⟩ := findIdxElem?_some _ hfind
    have hspn : s.partner = none := by
      cases hsp : s.partner with
      | none => rfl
      | some t => rw [hsp] at hpnone; simp at hpnone
    have hs_mem : s ∈ su := List.get?_mem hgets
    obtain ⟨k, hk, hki⟩ := hinv.spref s hs_mem
    have hsnSN : s.name ∈ SN := name_mem_of_mem hinv.sperm hs_mem
    have his : SN.indexOf s.name < SN.length := List.indexOf_lt_length.2 hsnSN
    have hkRN : k < RN.length := by omega
    obtain ⟨target, htg⟩ : ∃ t, RN.get? k = some t := by
      cases hg : RN.get? k with
      | none =>
        have := List.get?_eq_none.1 hg
        omega
      | some t => exact ⟨t, rfl⟩
    have hhead : s.pref.head? = some target := by
      rw [hk, head?_drop_eq_get?]
      exact htg
    have htRN : target ∈ RN := List.get?_mem htg
    obtain ⟨r0, hr0_mem, hr0name⟩ := exists_mem_name hinv.rperm htRN
    have hfr : (rv.find? (fun x => x.name == target)).isSome := by
      rw [List.find?_isSome]
      exact ⟨r0, hr0_mem, by simp [hr0name]⟩
    obtain ⟨r, hfindr⟩ := Option.isSome_iff_exists.1 hfr
    have hrq := List.find?_some hfindr
    have hrname : r.name = target := by simpa using hrq
    have hr_mem : r ∈ rv := List.mem_of_find?_eq_some hfindr
    obtain ⟨pre, post, hrv, _, _, hupd⟩ :=
      find?_decomp (fun x : Player α => x.name == target)
        (fun x : Player α => { x with partner := some s.name }) hfindr
    have hrpSN : r.pref = SN := hinv.rpref r hr_mem
    cases hrp : r.partner with
    | none =>
      obtain ⟨h1, h2⟩ := pair_branch hSN hRN hlen hinv hgets hspn hk hki htg hrv
        hrname hrp
      refine ⟨su.set i { s with partner := some r.name },
        pre ++ { r with partner := some s.name } :: post, ?_, h1, h2⟩
      simp only [gsStep, hfind, hhead, hfindr, hrp]
      rw [hupd]
    | some pName =>
      have hsm : s.name ∈ r.pref := by rw [hrpSN]; exact hsnSN
      have hpm : pName ∈ r.pref := by
        rw [hrpSN]
        exact (hinv.rptr r hr_mem pName hrp).1
      by_cases hlt : r.pref.indexOf s.name < r.pref.indexOf pName
      · obtain ⟨h1, h2⟩ := bump_branch hSN hRN hlen hinv hgets hspn hk hki htg hrv
          hrname hrp hlt
        refine ⟨(updateFirst (fun x => x.name == pName)
            (fun x => { x with partner := none }) su).set i
              { s with partner := some r.name },
          pre ++ { r with partner := some s.name } :: post, ?_, h1, h2⟩
        simp only [gsStep, hfind, hhead, hfindr, hrp]
        rw [if_pos hsm, if_pos hpm, if_pos hlt, hupd]
      · obtain ⟨h1, h2⟩ := remove_branch hSN hRN hlen hinv hgets hspn hk hki htg
          hr_mem hrname hrp hlt
        refine ⟨su.set i { s with pref := s.pref.erase r.name }, rv, ?_, h1, h2⟩
        simp only [gsStep, hfind, hhead, hfindr, hrp]
        rw [if_pos hsm, if_pos hpm, if_neg hlt]

/-- Master loop lemma: from an invariant state, with fuel exceeding the
unconditional measure, the loop completes without error, within `phi` many
iterations, in an invariant state in which every proposer is matched. -/
theorem gsLoop_master {SN RN : List α} (hSN : SN.Nodup) (hRN : RN.Nodup)
    (hlen : SN.length = RN.length) :
    ∀ (fuel : Nat) (su rv : List (Player α)), GSInv SN RN su rv →
      gsMeasure su rv < fuel →
      ∃ sf rf k, gsLoop fuel su rv = .done sf rf k ∧ k ≤ phi SN RN su rv ∧
        GSInv SN RN sf rf ∧ ∀ s ∈ sf, s.partner.isSome
  | 0, su, rv, _, hm => absurd hm (Nat.not_lt_zero _)
  | fuel + 1, su, rv, hinv, hm => by
    rcases gsStep_spec hSN hRN hlen hinv with ⟨hdone, hall⟩ |
      ⟨su2, rv2, hstep, hinv2, hphi⟩
    · exact ⟨su, rv, 0, by simp [gsLoop, hdone], Nat.zero_le _, hinv, hall⟩
    · have hm2 : gsMeasure su2 rv2 < fuel := by
        have := gsStep_measure_lt hstep
        omega
      obtain ⟨sf, rf, k2, hloop, hk2, hinvf, hallf⟩ :=
        gsLoop_master hSN hRN hlen fuel su2 rv2 hinv2 hm2
      refine ⟨sf, rf, k2 + 1, ?_, by omega, hinvf, hallf⟩
      simp [gsLoop, hstep, hloop]

/-- Safety of the proposal loop: from an invariant state, no amount of fuel
can make the loop raise one of the Python exceptions modelled in `StepErr` —
every partial operation in the loop body is safe. -/
theorem gsLoop_no_err {SN RN : List α} (hSN : SN.Nodup) (hRN : RN.Nodup)
    (hlen : SN.length = RN.length) :
    ∀ (fuel : Nat) (su rv : List (Player α)), GSInv SN RN su rv →
      ∀ e : StepErr, gsLoop fuel su rv ≠ .err e
  | 0, su, rv, _, e => by simp [gsLoop]
  | fuel + 1, su, rv, hinv, e => by
    rcases gsStep_spec hSN hRN hlen hinv with ⟨hdone, _⟩ |
      ⟨su2, rv2, hstep, hinv2, _⟩
    · simp [gsLoop, hdone]
    · cases hloop : gsLoop fuel su2 rv2 with
      | done sf rf k => simp [gsLoop, hstep, hloop]
      | err e2 => exact absurd hloop (gsLoop_no_err hSN hRN hlen fuel su2 rv2 hinv2 e2)
      | fuelOut => simp [gsLoop, hstep, hloop]

/-- Counting argument: in an invariant state in which every proposer is
matched, every target is matched as well (there are equally many on both
sides, partners are mutual, and distinct proposers have distinct partners). -/
theorem all_reviewers_matched {SN RN : List α} (hSN : SN.Nodup) (hRN : RN.Nodup)
    (hlen : SN.length = RN.length) {su rv : List (Player α)}
    (hinv : GSInv SN RN su rv) (hall : ∀ s ∈ su, s.partner.isSome) :
    ∀ r ∈ rv, r.partner.isSome := by
  have hsuN : (su.map Player.name).Nodup := hinv.sperm.nodup_iff.2 hSN
  have hsu_nodup : su.Nodup := hsuN.of_map
  have hsub : su.map Player.partner ⊆ RN.map some := by
    intro x hx
    obtain ⟨s, hs, rfl⟩ := List.mem_map.1 hx
    obtain ⟨t, ht⟩ := Option.isSome_iff_exists.1 (hall s hs)
    rw [ht]
    exact List.mem_map_of_mem some (hinv.sptr s hs t ht).1
  have hinj : ∀ x ∈ su, ∀ y ∈ su, x.partner = y.partner → x = y := by
    intro s1 h1 s2 h2 hp
    obtain ⟨t, ht⟩ := Option.isSome_iff_exists.1 (hall s1 h1)
    obtain ⟨htRN, hb1⟩ := hinv.sptr s1 h1 t ht
    obtain ⟨r2, hr2, hr2name⟩ := exists_mem_name hinv.rperm htRN
    have hq1 := hb1 r2 hr2 hr2name
    obtain ⟨htRN2, hb2⟩ := hinv.sptr s2 h2 t (hp ▸ ht)
    have hq2 := hb2 r2 hr2 hr2name
    rw [hq1] at hq2
    injection hq2 with hq2
    exact eq_of_name_mem hsuN h1 h2 hq2
  have hnodupP : (su.map Player.partner).Nodup := hsu_nodup.map_on hinj
  have hlenP : (RN.map some).length ≤ (su.map Player.partner).length := by
    have h1 : su.length = SN.length := by
      have := hinv.sperm.length_eq
      simpa using this
    simp [h1, hlen]
  have hperm : (su.map Player.partner).Perm (RN.map some) :=
    (hnodupP.subperm hsub).perm_of_length_le hlenP
  intro r hr
  have hrRN : r.name ∈ RN := name_mem_of_mem hinv.rperm hr
  have : (some r.name) ∈ su.map Player.partner :=
    hperm.mem_iff.2 (List.mem_map_of_mem some hrRN)
  obtain ⟨s, hs, hsp⟩ := List.mem_map.1 this
  obtain ⟨_, hback⟩ := hinv.sptr s hs r.name hsp
  rw [hback r hr rfl]
  rfl

/-! ## The initial state of the loop -/

theorem pysort_sorted (l : List α) : (pysort l).Sorted (· ≤ ·) :=
  List.sorted_insertionSort _ l

theorem pysort_perm (l : List α) : (pysort l).Perm l :=
  List.perm_insertionSort _ l

theorem pysort_eq_of_perm {l m : List α} (h : l.Perm m) : pysort l = pysort m :=
  List.eq_of_perm_of_sorted ((pysort_perm l).trans (h.trans (pysort_perm m).symm))
    (pysort_sorted l) (pysort_sorted m)

theorem pysort_idem {l : List α} (h : l.Sorted (· ≤ ·)) : pysort l = l :=
  List.eq_of_perm_of_sorted (pysort_perm l) (pysort_sorted l) h

theorem sum_map_add_sum_map (f g : β → Nat) :
    ∀ l : List β, (l.map f).sum + (l.map g).sum = (l.map (fun x => f x + g x)).sum
  | [] => rfl
  | x :: xs => by
    simp only [List.map_cons, List.sum_cons]
    have := sum_map_add_sum_map f g xs
    omega

theorem sum_map_const (c : Nat) : ∀ l : List β, (l.map (fun _ => c)).sum = l.length * c
  | [] => by simp
  | x :: xs => by
    simp only [List.map_cons, List.sum_cons, List.length_cons]
    rw [sum_map_const c xs]
    ring

theorem range_sum_add_reverse (n : Nat) :
    (List.range n).sum + ((List.range n).map (fun j => n - j)).sum = n * n := by
  have h0 : ((List.range n).map (fun j => j)).sum = (List.range n).sum := by
    rw [List.map_id']
  have h1 := sum_map_add_sum_map (fun j => j) (fun j => n - j) (List.range n)
  have h2 : (List.range n).map (fun j => j + (n - j)) =
      (List.range n).map (fun _ => n) := by
    apply List.map_congr_left
    intro j hj
    have := List.mem_range.1 hj
    omega
  rw [h0] at h1
  rw [h2, sum_map_const n (List.range n), List.length_range] at h1
  exact h1

theorem map_indexOf_self : ∀ {l : List α}, l.Nodup →
    l.map (fun x => l.indexOf x) = List.range l.length
  | [], _ => rfl
  | a :: t, hnd => by
    have hat : a ∉ t := (List.nodup_cons.1 hnd).1
    have hndt : t.Nodup := (List.nodup_cons.1 hnd).2
    simp only [List.map_cons, List.length_cons, List.range_succ_eq_map]
    congr 1
    · simp
    · have h1 : t.map (fun x => (a :: t).indexOf x) =
          t.map (fun x => t.indexOf x + 1) := by
        apply List.map_congr_left
        intro x hx
        have hxa : a ≠ x := fun hc => hat (hc ▸ hx)
        rw [List.indexOf_cons_ne _ hxa]
      rw [h1, show (fun x : α => t.indexOf x + 1) =
        (Nat.succ ∘ fun x : α => t.indexOf x) from rfl, ← List.map_map,
        map_indexOf_self hndt]

theorem map_name_sortPref (l : List (Player α)) :
    (l.map (fun s => { s with pref := pysort s.pref })).map Player.name =
      l.map Player.name := by
  rw [List.map_map]
  rfl

/-- After `_is_complete`'s in-place sort, a fresh complete registry satisfies
the loop invariant, with `SN` / `RN` the sorted name lists. -/
theorem initial_inv {g : MatchingGame α} (h : FreshComplete g) :
    GSInv (pysort (g.suitors.map Player.name)) (pysort (g.reviewers.map Player.name))
      (g.suitors.map (fun s => { s with pref := pysort s.pref }))
      (g.reviewers.map (fun r => { r with pref := pysort r.pref })) := by
  obtain ⟨hlen, hndS, hndR, hprefS, hprefR, hpS, hpR⟩ := h
  refine ⟨?_, ?_, ?_, ?_, ?_, ?_⟩
  · rw [map_name_sortPref]
    exact (pysort_perm _).symm
  · rw [map_name_sortPref]
    exact (pysort_perm _).symm
  · intro r2 hr2
    obtain ⟨r0, hr0, rfl⟩ := List.mem_map.1 hr2
    show pysort r0.pref = pysort (g.suitors.map Player.name)
    exact pysort_eq_of_perm (hprefR r0 hr0)
  · intro s2 hs2
    obtain ⟨s0, hs0, rfl⟩ := List.mem_map.1 hs2
    refine ⟨0, ?_, Nat.zero_le _⟩
    show pysort s0.pref = (pysort (g.reviewers.map Player.name)).drop 0
    rw [List.drop_zero]
    exact pysort_eq_of_perm (hprefS s0 hs0)
  · intro s2 hs2 t hpt
    obtain ⟨s0, hs0, rfl⟩ := List.mem_map.1 hs2
    have : s0.partner = some t := hpt
    rw [hpS s0 hs0] at this
    exact absurd this (by simp)
  · intro r2 hr2 u hpu
    obtain ⟨r0, hr0, rfl⟩ := List.mem_map.1 hr2
    have : r0.partner = some u := hpu
    rw [hpR r0 hr0] at this
    exact absurd this (by simp)

/-- The potential of the initial loop state is exactly `n²`. -/
theorem phi_initial {g : MatchingGame α} (h : FreshComplete g) :
    phi (pysort (g.suitors.map Player.name)) (pysort (g.reviewers.map Player.name))
      (g.suitors.map (fun s => { s with pref := pysort s.pref }))
      (g.reviewers.map (fun r => { r with pref := pysort r.pref })) =
    g.suitors.length * g.suitors.length := by
  obtain ⟨hlen, hndS, hndR, hprefS, hprefR, hpS, hpR⟩ := h
  have hSNlen : (pysort (g.suitors.map Player.name)).length = g.suitors.length := by
    rw [(pysort_perm _).length_eq, List.length_map]
  have hRNlen : (pysort (g.reviewers.map Player.name)).length = g.suitors.length := by
    rw [(pysort_perm _).length_eq, List.length_map, hlen]
  have hSNnd : (pysort (g.suitors.map Player.name)).Nodup :=
    (pysort_perm _).nodup_iff.2 hndS
  have hRNnd : (pysort (g.reviewers.map Player.name)).Nodup :=
    (pysort_perm _).nodup_iff.2 hndR
  unfold phi
  have hsu : (g.suitors.map (fun s => { s with pref := pysort s.pref })).map
      (fun x => (pysort (g.suitors.map Player.name)).indexOf x.name -
        ((pysort (g.reviewers.map Player.name)).length - x.pref.length)) =
      (g.suitors.map Player.name).map
        (fun x => (pysort (g.suitors.map Player.name)).indexOf x) := by
    rw [List.map_map, List.map_map]
    apply List.map_congr_left
    intro s0 hs0
    have hp : pysort s0.pref = pysort (g.reviewers.map Player.name) :=
      pysort_eq_of_perm (hprefS s0 hs0)
    show (pysort (g.suitors.map Player.name)).indexOf s0.name -
        ((pysort (g.reviewers.map Player.name)).length - (pysort s0.pref).length) =
      (pysort (g.suitors.map Player.name)).indexOf s0.name
    rw [hp]
    omega
  have hrv : (g.reviewers.map (fun r => { r with pref := pysort r.pref })).map
      (fun x => match x.partner with
        | none => (pysort (g.reviewers.map Player.name)).length -
            (pysort (g.reviewers.map Player.name)).indexOf x.name
        | some u => (pysort (g.suitors.map Player.name)).indexOf u -
            (pysort (g.reviewers.map Player.name)).indexOf x.name) =
      (g.reviewers.map Player.name).map
        (fun x => (pysort (g.reviewers.map Player.name)).length -
          (pysort (g.reviewers.map Player.name)).indexOf x) := by
    rw [List.map_map, List.map_map]
    apply List.map_congr_left
    intro r0 hr0
    simp only [Function.comp]
    rw [hpR r0 hr0]
  rw [hsu, hrv]
  have h1 : ((g.suitors.map Player.name).map
      (fun x => (pysort (g.suitors.map Player.name)).indexOf x)).sum =
      ((pysort (g.suitors.map Player.name)).map
        (fun x => (pysort (g.suitors.map Player.name)).indexOf x)).sum :=
    (((pysort_perm (g.suitors.map Player.name)).symm).map _).sum_eq
  have h2 : ((g.reviewers.map Player.name).map
      (fun x => (pysort (g.reviewers.map Player.name)).length -
        (pysort (g.reviewers.map Player.name)).indexOf x)).sum =
      ((pysort (g.reviewers.map Player.name)).map
        (fun x => (pysort (g.reviewers.map Player.name)).length -
          (pysort (g.reviewers.map Player.name)).indexOf x)).sum :=
    (((pysort_perm (g.reviewers.map Player.name)).symm).map _).sum_eq
  rw [h1, h2]
  have h3 : (pysort (g.suitors.map Player.name)).map
      (fun x => (pysort (g.suitors.map Player.name)).indexOf x) =
      List.range g.suitors.length := by
    rw [map_indexOf_self hSNnd, hSNlen]
  have h4 : (pysort (g.reviewers.map Player.name)).map
      (fun x => (pysort (g.reviewers.map Player.name)).length -
        (pysort (g.reviewers.map Player.name)).indexOf x) =
      (List.range g.suitors.length).map (fun j => g.suitors.length - j) := by
    rw [show (fun x => (pysort (g.reviewers.map Player.name)).length -
        (pysort (g.reviewers.map Player.name)).indexOf x) =
      ((fun j => (pysort (g.reviewers.map Player.name)).length - j) ∘
        (fun x => (pysort (g.reviewers.map Player.name)).indexOf x)) from rfl,
      ← List.map_map, map_indexOf_self hRNnd, hRNlen]
  rw [h3, h4]
  exact range_sum_add_reverse g.suitors.length

theorem fresh_setup {g : MatchingGame α} (h : FreshComplete g) :
    (pysort (g.suitors.map Player.name)).Nodup ∧
    (pysort (g.reviewers.map Player.name)).Nodup ∧
    (pysort (g.suitors.map Player.name)).length =
      (pysort (g.reviewers.map Player.name)).length := by
  obtain ⟨hlen, hndS, hndR, _, _, _, _⟩ := h
  refine ⟨(pysort_perm _).nodup_iff.2 hndS, (pysort_perm _).nodup_iff.2 hndR, ?_⟩
  rw [(pysort_perm _).length_eq, (pysort_perm _).length_eq, List.length_map,
    List.length_map, hlen]

theorem isComplete_fresh {g : MatchingGame α} (h : FreshComplete g) :
    g.isComplete = .ok
      { suitors := g.suitors.map (fun s => { s with pref := pysort s.pref }),
        reviewers := g.reviewers.map (fun r => { r with pref := pysort r.pref }) } := by
  unfold MatchingGame.isComplete
  rw [if_neg]
  simp [h.1]

/-- C8: on every fresh complete registry (equal sides, unique names per side,
every preference list a full enumeration of the opposite side, partners unset),
the proposal loop `solve` runs — on the state left by `_is_complete`'s in-place
sort, with the fuel `solve` supplies — terminates in a completed state, and
performs at most n × n iterations. -/
theorem proposal_loop_terminates_within_n_squared {g g' : MatchingGame α}
    (h : FreshComplete g) (h2 : g.isComplete = .ok g') :
    ∃ sf rf k,
      gsLoop (gsMeasure g'.suitors g'.reviewers + 1) g'.suitors g'.reviewers =
        .done sf rf k ∧
      k ≤ g.suitors.length * g.suitors.length := by
  rw [isComplete_fresh h] at h2
  injection h2 with h2
  obtain ⟨hSNnd, hRNnd, hlenSR⟩ := fresh_setup h
  obtain ⟨sf, rf, k, hloop, hk, _, _⟩ :=
    gsLoop_master hSNnd hRNnd hlenSR
      (gsMeasure (g.suitors.map (fun s => { s with pref := pysort s.pref }))
        (g.reviewers.map (fun r => { r with pref := pysort r.pref })) + 1)
      (g.suitors.map (fun s => { s with pref := pysort s.pref }))
      (g.reviewers.map (fun r => { r with pref := pysort r.pref }))
      (initial_inv h) (Nat.lt_succ_self _)
  rw [phi_initial h] at hk
  refine ⟨sf, rf, k, ?_, hk⟩
  rw [← h2]
  exact hloop

/-- Witness for `proposal_loop_terminates_within_n_squared` on the 1×1
registry J→[A], A→[J]. -/
theorem proposal_loop_terminates_within_n_squared_witness :
    ∃ sf rf k,
      gsLoop (gsMeasure (MatchingGame.ofDicts [('J', ['A'])] [('A', ['J'])]).suitors
          (MatchingGame.ofDicts [('J', ['A'])] [('A', ['J'])]).reviewers + 1)
        (MatchingGame.ofDicts [('J', ['A'])] [('A', ['J'])]).suitors
        (MatchingGame.ofDicts [('J', ['A'])] [('A', ['J'])]).reviewers =
        .done sf rf k ∧
      k ≤ gJA.suitors.length * gJA.suitors.length :=
  @proposal_loop_terminates_within_n_squared Char _ gJA
    (MatchingGame.ofDicts [('J', ['A'])] [('A', ['J'])])
    (by decide) (by decide)

/-- C10: on every fresh complete registry, the proposal loop of `solve` is
safe: no amount of fuel makes it hit any of the partial-operation error
branches (`s.pref[0]` on an empty list, a failed reviewer lookup, or a failed
`r.pref.index` search) — in this total embedding with explicit error results,
all of those branches are unreachable. -/
theorem proposal_loop_never_errors {g g' : MatchingGame α}
    (h : FreshComplete g) (h2 : g.isComplete = .ok g') :
    ∀ (fuel : Nat) (e : StepErr), gsLoop fuel g'.suitors g'.reviewers ≠ .err e := by
  rw [isComplete_fresh h] at h2
  injection h2 with h2
  obtain ⟨hSNnd, hRNnd, hlenSR⟩ := fresh_setup h
  intro fuel e
  rw [← h2]
  exact gsLoop_no_err hSNnd hRNnd hlenSR fuel
    (g.suitors.map (fun s => { s with pref := pysort s.pref }))
    (g.reviewers.map (fun r => { r with pref := pysort r.pref }))
    (initial_inv h) e

/-- Witness for `proposal_loop_never_errors` on the 1×1 registry
J→[A], A→[J], instantiated at fuel 5 and the headIndex error. -/
theorem proposal_loop_never_errors_witness :
    gsLoop 5 (MatchingGame.ofDicts [('J', ['A'])] [('A', ['J'])]).suitors
      (MatchingGame.ofDicts [('J', ['A'])] [('A', ['J'])]).reviewers ≠
      .err StepErr.headIndex :=
  @proposal_loop_never_errors Char _ gJA
    (MatchingGame.ofDicts [('J', ['A'])] [('A', ['J'])])
    (by decide) (by decide) 5 StepErr.headIndex

/-! ## Second solves and idempotence -/

theorem zipWith_mem {γ δ ε : Type} {f : γ → δ → ε} :
    ∀ {A : List γ} {B : List δ} {x : ε}, x ∈ List.zipWith f A B →
      ∃ a ∈ A, ∃ b ∈ B, x = f a b
  | [], B, x, hx => by simp at hx
  | a :: A, [], x, hx => by simp at hx
  | a :: A, b :: B, x, hx => by
    rcases List.mem_cons.1 hx with rfl | hx
    · exact ⟨a, List.mem_cons_self a A, b, List.mem_cons_self b B, rfl⟩
    · obtain ⟨a2, ha2, b2, hb2, rfl⟩ := zipWith_mem hx
      exact ⟨a2, List.mem_cons_of_mem a ha2, b2, List.mem_cons_of_mem b hb2, rfl⟩

theorem zipWith_commit_self :
    ∀ l : List (Player α),
      List.zipWith (fun i j => { i with partner := j.partner }) l l = l
  | [] => rfl
  | x :: xs => by
    simp only [List.zipWith_cons_cons, zipWith_commit_self xs]

theorem findIdxElem?_none_of (p : β → Bool) :
    ∀ {l : List β}, (∀ x ∈ l, p x = false) → findIdxElem? p l = none
  | [], _ => rfl
  | x :: xs, h => by
    rw [findIdxElem?_cons_neg (h x (List.mem_cons_self x xs)),
      findIdxElem?_none_of p (fun y hy => h y (List.mem_cons_of_mem x hy))]
    rfl

theorem sortPrefs_id {l : List (Player α)} (hs : ∀ s ∈ l, s.pref.Sorted (· ≤ ·)) :
    l.map (fun s => { s with pref := pysort s.pref }) = l := by
  have h1 : ∀ s ∈ l, (fun s : Player α => { s with pref := pysort s.pref }) s = id s := by
    intro s hsl
    show ({ s with pref := pysort s.pref } : Player α) = s
    rw [pysort_idem (hs s hsl)]
  rw [List.map_congr_left h1, List.map_id]

end MatchingGameSpec

namespace MatchingGameSpec

variable {α : Type} [LinearOrder α]

theorem isNone_false_of_isSome {γ : Type} {o : Option γ} (h : o.isSome = true) :
    o.isNone = false := by
  cases o with
  | none => simp at h
  | some t => rfl

/-- Calling `solve` on a registry that is already solved and sorted (every
preference list sorted, every partner set, equal sides) returns the registry
unchanged together with its current mapping: `_is_complete`'s sorts are no-ops,
the loop body never runs because no proposer is unassigned, and the commit
copies every partner onto itself. -/
theorem solve_second {G : MatchingGame α}
    (hlenG : G.suitors.length = G.reviewers.length)
    (hsorted_s : ∀ x ∈ G.suitors, x.pref.Sorted (· ≤ ·))
    (hsorted_r : ∀ x ∈ G.reviewers, x.pref.Sorted (· ≤ ·))
    (hall_s : ∀ x ∈ G.suitors, x.partner.isSome = true)
    {D : List (α × List α)} (hsd : G.solDict = .ok D) :
    G.solve false = .ok (G, D) := by
  have hic2 : G.isComplete = .ok G := by
    unfold MatchingGame.isComplete
    rw [if_neg (fun hc => hc hlenG)]
    rw [sortPrefs_id hsorted_s, sortPrefs_id hsorted_r]
  have hfind2 : findIdxElem? (fun s => s.partner.isNone) G.suitors = none :=
    findIdxElem?_none_of _ (fun x hx => isNone_false_of_isSome (hall_s x hx))
  have hstep2 : gsStep G.suitors G.reviewers = .ok none := by
    unfold gsStep
    rw [hfind2]
  have hG : ({ suitors := G.suitors, reviewers := G.reviewers } : MatchingGame α) = G :=
    rfl
  simp only [MatchingGame.solve, hic2, Bool.false_eq_true, if_false, gsLoop, hstep2,
    zipWith_commit_self, hG, hsd]

/-- C9: calling `solve` twice in succession on an unmodified fresh complete
registry returns the same partner mapping both times, and the second call
leaves the registry exactly as the first did.  (The deep copies of the second
call inherit the committed partners — `solve` resets only the never-read
`matched` attribute, not `partner` — so no proposer is unassigned and the loop
body never runs.) -/
theorem solve_idempotent {g g1 : MatchingGame α} {d : List (α × List α)}
    (h : FreshComplete g) (h2 : g.solve false = .ok (g1, d)) :
    g1.solve false = .ok (g1, d) := by
  obtain ⟨hSNnd, hRNnd, hlenSR⟩ := fresh_setup h
  obtain ⟨sf, rf, k, hloop, hk, hinvf, hallf⟩ :=
    gsLoop_master hSNnd hRNnd hlenSR
      (gsMeasure (g.suitors.map (fun s => { s with pref := pysort s.pref }))
        (g.reviewers.map (fun r => { r with pref := pysort r.pref })) + 1)
      (g.suitors.map (fun s => { s with pref := pysort s.pref }))
      (g.reviewers.map (fun r => { r with pref := pysort r.pref }))
      (initial_inv h) (Nat.lt_succ_self _)
  have hallr : ∀ r2 ∈ rf, r2.partner.isSome :=
    all_reviewers_matched hSNnd hRNnd hlenSR hinvf hallf
  simp only [MatchingGame.solve, isComplete_fresh h, Bool.false_eq_true, if_false] at h2
  simp only [hloop] at h2
  have hallsu : ∀ x ∈ List.zipWith (fun i j : Player α => { i with partner := j.partner })
      (g.suitors.map (fun s => { s with pref := pysort s.pref })) sf,
      x.partner.isSome = true := by
    intro x hx
    obtain ⟨a, _, b, hb, rfl⟩ := zipWith_mem hx
    exact hallf b hb
  have hallrv : ∀ x ∈ List.zipWith (fun i j : Player α => { i with partner := j.partner })
      (g.reviewers.map (fun r => { r with pref := pysort r.pref })) rf,
      x.partner.isSome = true := by
    intro x hx
    obtain ⟨a, _, b, hb, rfl⟩ := zipWith_mem hx
    exact hallr b hb
  have hcheck : isSovledCheck
      { suitors := List.zipWith (fun i j : Player α => { i with partner := j.partner })
          (g.suitors.map (fun s => { s with pref := pysort s.pref })) sf,
        reviewers := List.zipWith (fun i j : Player α => { i with partner := j.partner })
          (g.reviewers.map (fun r => { r with pref := pysort r.pref })) rf } = true := by
    unfold isSovledCheck
    rw [Bool.and_eq_true, List.all_eq_true, List.all_eq_true]
    exact ⟨hallsu, hallrv⟩
  simp only [MatchingGame.solDict, hcheck, eq_self_iff_true, if_true] at h2
  rw [Except.ok.injEq, Prod.mk.injEq] at h2
  obtain ⟨hg1, hd⟩ := h2
  have hsd1 : g1.solDict = .ok d := by
    rw [← hg1]
    simp only [MatchingGame.solDict, hcheck, eq_self_iff_true, if_true]
    rw [hd]
  have hlen_sf : sf.length = g.suitors.length := by
    have h1 := hinvf.sperm.length_eq
    rw [List.length_map] at h1
    rw [h1, (pysort_perm _).length_eq, List.length_map]
  have hlen_rf : rf.length = g.suitors.length := by
    have h1 := hinvf.rperm.length_eq
    rw [List.length_map] at h1
    rw [h1, (pysort_perm _).length_eq, List.length_map, ← h.1]
  have hlenG : g1.suitors.length = g1.reviewers.length := by
    rw [← hg1]
    show (List.zipWith _ _ _).length = (List.zipWith _ _ _).length
    rw [List.length_zipWith, List.length_zipWith, List.length_map, List.length_map,
      hlen_sf, hlen_rf, ← h.1]
  have hsorted_s : ∀ x ∈ g1.suitors, x.pref.Sorted (· ≤ ·) := by
    rw [← hg1]
    intro x hx
    obtain ⟨a, ha, b, _, rfl⟩ := zipWith_mem hx
    obtain ⟨s0, _, rfl⟩ := List.mem_map.1 ha
    exact pysort_sorted s0.pref
  have hsorted_r : ∀ x ∈ g1.reviewers, x.pref.Sorted (· ≤ ·) := by
    rw [← hg1]
    intro x hx
    obtain ⟨a, ha, b, _, rfl⟩ := zipWith_mem hx
    obtain ⟨r0, _, rfl⟩ := List.mem_map.1 ha
    exact pysort_sorted r0.pref
  have hall_s1 : ∀ x ∈ g1.suitors, x.partner.isSome = true := by
    rw [← hg1]
    exact hallsu
  exact solve_second hlenG hsorted_s hsorted_r hall_s1 hsd1

/-- Witness for the idempotence theorem: the one-suitor registry J:[A] / A:[J]
solves to J paired with A, and solving the returned registry again reproduces
the same registry and the same mapping. -/
theorem solve_idempotent_witness :
    MatchingGame.solve
      ({ suitors := [{ name := 'J', pref := ['A'], partner := some 'A' }],
         reviewers := [{ name := 'A', pref := ['J'], partner := some 'J' }] } :
        MatchingGame Char) false =
    Except.ok
      (({ suitors := [{ name := 'J', pref := ['A'], partner := some 'A' }],
          reviewers := [{ name := 'A', pref := ['J'], partner := some 'J' }] } :
         MatchingGame Char),
       [('J', ['A']), ('A', ['J'])]) :=
  @solve_idempotent Char _ gJA
    { suitors := [{ name := 'J', pref := ['A'], partner := some 'A' }],
      reviewers := [{ name := 'A', pref := ['J'], partner := some 'J' }] }
    [('J', ['A']), ('A', ['J'])] (by decide) (by decide)

/-! ## Support for the output-mapping claim: names through the loop and
the shape of the dictionary built by `_sol_dict` -/

theorem gsStep_names {su rv su2 rv2 : List (Player α)}
    (h : gsStep su rv = .ok (some (su2, rv2))) :
    su2.map Player.name = su.map Player.name ∧
      rv2.map Player.name = rv.map Player.name := by
  unfold gsStep at h
  cases hfind : findIdxElem? (fun s => s.partner.isNone) su with
  | none => simp only [hfind] at h; exact absurd h (by simp)
  | some is =>
    obtain ⟨i, s⟩ := is
    simp only [hfind] at h
    obtain ⟨hgets, -⟩ := findIdxElem?_some _ hfind
    cases hhead : s.pref.head? with
    | none => simp only [hhead] at h; exact absurd h (by simp)
    | some target =>
      simp only [hhead] at h
      cases hfr : rv.find? (fun x => x.name == target) with
      | none => simp only [hfr] at h; exact absurd h (by simp)
      | some r =>
        simp only [hfr] at h
        cases hrp : r.partner with
        | none =>
          simp only [hrp] at h
          rw [Except.ok.injEq, Option.some.injEq, Prod.mk.injEq] at h
          obtain ⟨h1, h2⟩ := h
          refine ⟨?_, ?_⟩
          · rw [← h1]
            exact map_name_set_eq hgets rfl
          · rw [← h2]
            exact map_updateFirst Player.name (fun x => x.name == target)
              (fun x => { x with partner := some s.name }) (fun y => rfl) rv
        | some pName =>
          simp only [hrp] at h
          by_cases hsr : s.name ∈ r.pref
          · rw [if_pos hsr] at h
            by_cases hpr : pName ∈ r.pref
            · rw [if_pos hpr] at h
              by_cases hlt : r.pref.indexOf s.name < r.pref.indexOf pName
              · rw [if_pos hlt] at h
                rw [Except.ok.injEq, Option.some.injEq, Prod.mk.injEq] at h
                obtain ⟨h1, h2⟩ := h
                have hupd : (updateFirst (fun x => x.name == pName)
                    (fun x => { x with partner := none }) su).map Player.name =
                    su.map Player.name :=
                  map_updateFirst Player.name (fun x => x.name == pName)
                    (fun x => { x with partner := none }) (fun y => rfl) su
                refine ⟨?_, ?_⟩
                · rw [← h1]
                  rcases get?_updateFirst (fun x => x.name == pName)
                      (fun x => { x with partner := none }) su i with hcase | ⟨x, hx1, hx2⟩
                  · exact (map_name_set_eq (hcase.trans hgets)
                      (show ({ s with partner := some r.name } : Player α).name = s.name
                        from rfl)).trans hupd
                  · rw [hgets] at hx1
                    injection hx1 with hx1
                    subst hx1
                    exact (map_name_set_eq hx2
                      (show ({ s with partner := some r.name } : Player α).name =
                        ({ s with partner := none } : Player α).name from rfl)).trans hupd
                · rw [← h2]
                  exact map_updateFirst Player.name (fun x => x.name == target)
                    (fun x => { x with partner := some s.name }) (fun y => rfl) rv
              · rw [if_neg hlt] at h
                rw [Except.ok.injEq, Option.some.injEq, Prod.mk.injEq] at h
                obtain ⟨h1, h2⟩ := h
                refine ⟨?_, by rw [← h2]⟩
                rw [← h1]
                exact map_name_set_eq hgets rfl
            · rw [if_neg hpr] at h
              exact absurd h (by simp)
          · rw [if_neg hsr] at h
            exact absurd h (by simp)

theorem gsLoop_names :
    ∀ (fuel : Nat) {su rv sf rf : List (Player α)} {k : Nat},
      gsLoop fuel su rv = .done sf rf k →
      sf.map Player.name = su.map Player.name ∧
        rf.map Player.name = rv.map Player.name
  | 0, su, rv, sf, rf, k, h => by simp [gsLoop] at h
  | fuel + 1, su, rv, sf, rf, k, h => by
    rw [gsLoop] at h
    cases hstep : gsStep su rv with
    | error e => rw [hstep] at h; exact absurd h (by simp)
    | ok o =>
      cases o with
      | none =>
        simp only [hstep] at h
        rw [LoopResult.done.injEq] at h
        obtain ⟨rfl, rfl, rfl⟩ := h
        exact ⟨rfl, rfl⟩
      | some p =>
        obtain ⟨su2, rv2⟩ := p
        simp only [hstep] at h
        cases hrec : gsLoop fuel su2 rv2 with
        | done sf2 rf2 k2 =>
          simp only [hrec] at h
          rw [LoopResult.done.injEq] at h
          obtain ⟨rfl, rfl, rfl⟩ := h
          obtain ⟨ha, hb⟩ := gsLoop_names fuel hrec
          obtain ⟨hc, hd⟩ := gsStep_names hstep
          exact ⟨ha.trans hc, hb.trans hd⟩
        | err e => simp only [hrec] at h; exact absurd h (by simp)
        | fuelOut => simp only [hrec] at h; exact absurd h (by simp)

theorem dictInsert_fresh {d : List (α × List α)} {k : α} (v : List α)
    (hk : k ∉ d.map Prod.fst) : dictInsert d k v = d ++ [(k, v)] := by
  have hfalse : d.any (fun kv => kv.1 == k) = false := by
    rw [List.any_eq_false]
    intro kv hkv hbeq
    have hkk : kv.1 = k := by simpa using hbeq
    exact hk (hkk ▸ List.mem_map_of_mem Prod.fst hkv)
  unfold dictInsert
  rw [hfalse]
  rfl

theorem foldl_dictInsert_fresh :
    ∀ (l : List (Player α)) (d0 : List (α × List α)),
      (d0.map Prod.fst ++ l.map Player.name).Nodup →
      l.foldl (fun d2 p => dictInsert d2 p.name p.partner.toList) d0 =
        d0 ++ l.map (fun p => (p.name, p.partner.toList))
  | [], d0, _ => by simp
  | x :: xs, d0, hnd => by
    have hx : x.name ∉ d0.map Prod.fst := by
      intro hc
      rcases List.nodup_append.1 hnd with ⟨-, -, hdisj⟩
      exact hdisj hc (by simp)
    rw [List.foldl_cons, dictInsert_fresh _ hx]
    have hnd2 : ((d0 ++ [(x.name, x.partner.toList)]).map Prod.fst ++
        xs.map Player.name).Nodup := by
      rw [List.map_append, List.append_assoc]
      simpa using hnd
    rw [foldl_dictInsert_fresh xs _ hnd2]
    simp

theorem zipWith_commit_entries :
    ∀ {a b : List (Player α)}, a.map Player.name = b.map Player.name →
      (List.zipWith (fun i j => { i with partner := j.partner }) a b).map
          (fun p => (p.name, p.partner.toList)) =
        b.map (fun p => (p.name, p.partner.toList))
  | [], [], _ => rfl
  | [], y :: ys, h => by simp at h
  | x :: xs, [], h => by simp at h
  | x :: xs, y :: ys, h => by
    simp only [List.map_cons, List.cons.injEq] at h
    obtain ⟨h1, h2⟩ := h
    show (x.name, y.partner.toList) ::
        (List.zipWith (fun i j : Player α => { i with partner := j.partner }) xs ys).map
          (fun p : Player α => (p.name, p.partner.toList)) =
      (y.name, y.partner.toList) ::
        ys.map (fun p : Player α => (p.name, p.partner.toList))
    rw [h1, zipWith_commit_entries h2]

theorem zipWith_commit_names :
    ∀ {a b : List (Player α)}, a.map Player.name = b.map Player.name →
      (List.zipWith (fun i j => { i with partner := j.partner }) a b).map
          Player.name = a.map Player.name
  | [], [], _ => rfl
  | [], y :: ys, h => by simp at h
  | x :: xs, [], h => by simp at h
  | x :: xs, y :: ys, h => by
    simp only [List.map_cons, List.cons.injEq] at h
    obtain ⟨h1, h2⟩ := h
    show x.name :: (List.zipWith (fun i j : Player α => { i with partner := j.partner })
        xs ys).map Player.name = x.name :: xs.map Player.name
    rw [zipWith_commit_names h2]

theorem toList_eq_singleton {o : Option β} {y : β} (h : o.toList = [y]) :
    o = some y := by
  cases o with
  | none => exact absurd h (by simp)
  | some z =>
    simp only [Option.toList, List.cons.injEq, and_true] at h
    rw [h]

/-- C2 (amended): for a fresh complete registry whose agent names are unique
across BOTH sides, a successful non-inverted solve returns a mapping whose
keys are exactly the suitor names followed by the reviewer names — hence 2n
distinct keys, one per agent — every key is mapped to a one-element list, and
the assignment is symmetric: x maps to [y] exactly when y maps to [x].  The
original claim requires uniqueness only within each side; the counterexample
with a suitor and a reviewer sharing a name refutes that weaker version, since
Python dict keys compare players by name and the two agents collapse into one
key. -/
theorem solve_output_complete_and_symmetric {g g1 : MatchingGame α}
    {d : List (α × List α)} (h : FreshComplete g)
    (hx : (g.suitors.map Player.name ++ g.reviewers.map Player.name).Nodup)
    (h2 : g.solve false = .ok (g1, d)) :
    d.map Prod.fst = g.suitors.map Player.name ++ g.reviewers.map Player.name ∧
    (d.map Prod.fst).Nodup ∧
    d.length = g.suitors.length + g.reviewers.length ∧
    (∀ kv ∈ d, ∃ y, kv.2 = [y]) ∧
    (∀ x y, (x, [y]) ∈ d → (y, [x]) ∈ d) := by
  obtain ⟨hSNnd, hRNnd, hlenSR⟩ := fresh_setup h
  obtain ⟨sf, rf, k, hloop, hk, hinvf, hallf⟩ :=
    gsLoop_master hSNnd hRNnd hlenSR
      (gsMeasure (g.suitors.map (fun s => { s with pref := pysort s.pref }))
        (g.reviewers.map (fun r => { r with pref := pysort r.pref })) + 1)
      (g.suitors.map (fun s => { s with pref := pysort s.pref }))
      (g.reviewers.map (fun r => { r with pref := pysort r.pref }))
      (initial_inv h) (Nat.lt_succ_self _)
  have hallr : ∀ r2 ∈ rf, r2.partner.isSome :=
    all_reviewers_matched hSNnd hRNnd hlenSR hinvf hallf
  simp only [MatchingGame.solve, isComplete_fresh h, Bool.false_eq_true, if_false] at h2
  simp only [hloop] at h2
  have hnames_s : sf.map Player.name = g.suitors.map Player.name := by
    have hgl := (gsLoop_names _ hloop).1
    rwa [map_name_sortPref] at hgl
  have hnames_r : rf.map Player.name = g.reviewers.map Player.name := by
    have hgl := (gsLoop_names _ hloop).2
    rwa [map_name_sortPref] at hgl
  have hSUeq : (g.suitors.map (fun s => { s with pref := pysort s.pref })).map
      Player.name = sf.map Player.name := by
    rw [map_name_sortPref, hnames_s]
  have hRVeq : (g.reviewers.map (fun r => { r with pref := pysort r.pref })).map
      Player.name = rf.map Player.name := by
    rw [map_name_sortPref, hnames_r]
  have hcs := zipWith_commit_entries hSUeq
  have hcr := zipWith_commit_entries hRVeq
  have hcsname := zipWith_commit_names hSUeq
  have hcrname := zipWith_commit_names hRVeq
  have hallsu : ∀ x ∈ List.zipWith (fun i j : Player α => { i with partner := j.partner })
      (g.suitors.map (fun s => { s with pref := pysort s.pref })) sf,
      x.partner.isSome = true := by
    intro x hxm
    obtain ⟨a, _, b, hb, rfl⟩ := zipWith_mem hxm
    exact hallf b hb
  have hallrv : ∀ x ∈ List.zipWith (fun i j : Player α => { i with partner := j.partner })
      (g.reviewers.map (fun r => { r with pref := pysort r.pref })) rf,
      x.partner.isSome = true := by
    intro x hxm
    obtain ⟨a, _, b, hb, rfl⟩ := zipWith_mem hxm
    exact hallr b hb
  have hcheck : isSovledCheck
      { suitors := List.zipWith (fun i j : Player α => { i with partner := j.partner })
          (g.suitors.map (fun s => { s with pref := pysort s.pref })) sf,
        reviewers := List.zipWith (fun i j : Player α => { i with partner := j.partner })
          (g.reviewers.map (fun r => { r with pref := pysort r.pref })) rf } = true := by
    unfold isSovledCheck
    rw [Bool.and_eq_true, List.all_eq_true, List.all_eq_true]
    exact ⟨hallsu, hallrv⟩
  simp only [MatchingGame.solDict, hcheck, eq_self_iff_true, if_true] at h2
  rw [Except.ok.injEq, Prod.mk.injEq] at h2
  obtain ⟨hg1, hd⟩ := h2
  have hndfull : ((List.zipWith (fun i j : Player α => { i with partner := j.partner })
        (g.suitors.map (fun s : Player α => { s with pref := pysort s.pref })) sf ++
      List.zipWith (fun i j : Player α => { i with partner := j.partner })
        (g.reviewers.map (fun r : Player α => { r with pref := pysort r.pref })) rf).map
        Player.name).Nodup := by
    rw [List.map_append, hcsname, hcrname, map_name_sortPref, map_name_sortPref]
    exact hx
  have hd2 : d = sf.map (fun p : Player α => (p.name, p.partner.toList)) ++
      rf.map (fun p : Player α => (p.name, p.partner.toList)) := by
    rw [← hd, foldl_dictInsert_fresh _ _ (by simpa using hndfull),
      List.nil_append, List.map_append, hcs, hcr]
  have hkeys : d.map Prod.fst =
      g.suitors.map Player.name ++ g.reviewers.map Player.name := by
    rw [hd2, List.map_append, List.map_map, List.map_map,
      show (Prod.fst ∘ fun p : Player α => (p.name, p.partner.toList)) = Player.name
        from rfl,
      hnames_s, hnames_r]
  refine ⟨hkeys, by rw [hkeys]; exact hx, ?_, ?_, ?_⟩
  · have hlen := congrArg List.length hkeys
    rw [List.length_map, List.length_append, List.length_map, List.length_map] at hlen
    exact hlen
  · intro kv hkv
    rw [hd2] at hkv
    rcases List.mem_append.1 hkv with hmem | hmem
    · obtain ⟨p, hp, rfl⟩ := List.mem_map.1 hmem
      obtain ⟨y, hy⟩ := Option.isSome_iff_exists.1 (hallf p hp)
      exact ⟨y, by simp [hy]⟩
    · obtain ⟨p, hp, rfl⟩ := List.mem_map.1 hmem
      obtain ⟨y, hy⟩ := Option.isSome_iff_exists.1 (hallr p hp)
      exact ⟨y, by simp [hy]⟩
  · intro x y hxy
    rw [hd2] at hxy ⊢
    rcases List.mem_append.1 hxy with hmem | hmem
    · obtain ⟨p, hp, hpe⟩ := List.mem_map.1 hmem
      rw [Prod.mk.injEq] at hpe
      obtain ⟨hpx, hpy⟩ := hpe
      have hpart : p.partner = some y := toList_eq_singleton hpy
      obtain ⟨hyRN, hsym⟩ := hinvf.sptr p hp y hpart
      obtain ⟨r, hr, hrname⟩ := exists_mem_name hinvf.rperm hyRN
      have hrp : r.partner = some p.name := hsym r hr hrname
      refine List.mem_append.2 (Or.inr (List.mem_map.2 ⟨r, hr, ?_⟩))
      show (r.name, r.partner.toList) = (y, [x])
      rw [hrname, hrp, hpx]
      rfl
    · obtain ⟨r, hr, hpe⟩ := List.mem_map.1 hmem
      rw [Prod.mk.injEq] at hpe
      obtain ⟨hrx, hry⟩ := hpe
      have hrpart : r.partner = some y := toList_eq_singleton hry
      obtain ⟨hySN, -, hsym⟩ := hinvf.rptr r hr y hrpart
      obtain ⟨s, hs, hsname⟩ := exists_mem_name hinvf.sperm hySN
      have hsp : s.partner = some r.name := hsym s hs hsname
      refine List.mem_append.2 (Or.inl (List.mem_map.2 ⟨s, hs, ?_⟩))
      show (s.name, s.partner.toList) = (y, [x])
      rw [hsname, hsp, hrx]
      rfl

/-- Witness for the amended output-mapping theorem at the one-suitor registry
J:[A] / A:[J], whose solve returns the mapping J to [A], A to [J]: two keys
(one per agent), singleton values, and a symmetric assignment. -/
theorem solve_output_complete_and_symmetric_witness :
    ([(('J' : Char), ['A']), ('A', ['J'])] : List (Char × List Char)).map Prod.fst =
      gJA.suitors.map Player.name ++ gJA.reviewers.map Player.name ∧
    (([(('J' : Char), ['A']), ('A', ['J'])] : List (Char × List Char)).map
      Prod.fst).Nodup ∧
    ([(('J' : Char), ['A']), ('A', ['J'])] : List (Char × List Char)).length =
      gJA.suitors.length + gJA.reviewers.length ∧
    (∀ kv ∈ ([(('J' : Char), ['A']), ('A', ['J'])] : List (Char × List Char)),
      ∃ y, kv.2 = [y]) ∧
    (∀ x y, (x, [y]) ∈ ([(('J' : Char), ['A']), ('A', ['J'])] : List (Char × List Char)) →
      (y, [x]) ∈ ([(('J' : Char), ['A']), ('A', ['J'])] : List (Char × List Char))) :=
  @solve_output_complete_and_symmetric Char _ gJA
    { suitors := [{ name := 'J', pref := ['A'], partner := some 'A' }],
      reviewers := [{ name := 'A', pref := ['J'], partner := some 'J' }] }
    [('J', ['A']), ('A', ['J'])] (by decide) (by decide) (by decide)

end MatchingGameSpec
